import Mathlib

/-!
Verification development for the `cli-session-recorder` session recording core
(`session_recorder.py`).  The Python source is shallowly embedded: strings are
lists of characters, timestamps are passed explicitly to every operation that
reads the clock, subprocess and filesystem effects are passed as explicit
inputs, and every Python function used by the claims is translated into an
executable Lean definition.
-/

namespace SessionRec

/-- Strings of the Python program are modelled as lists of characters. -/
abbrev Str := List Char

/-- The single quote character, written via its code point. -/
def sq : Char := Char.ofNat 39

/-! ## Character classes used by the redaction regexes.
The classes model the ASCII behaviour of Python regex character classes:
`\w` is letters, digits and underscore; `\s` is the six ASCII whitespace
characters; `[a-zA-Z0-9]` is letters and digits. -/

/-- Model of the regex class `["\']` (a double or single quote). -/
def isQuoteCh (c : Char) : Bool := c = '"' || c = sq

/-- Model of the regex class `[:=]`. -/
def isSepCh (c : Char) : Bool := c = ':' || c = '='

/-- Model of the regex class `\s` (ASCII whitespace). -/
def isWsCh (c : Char) : Bool :=
  c = ' ' || c = '\t' || c = '\n' || c = '\r' || c = Char.ofNat 11 || c = Char.ofNat 12

/-- Model of the regex class `\w` (word character, ASCII). -/
def isWordCh (c : Char) : Bool := c.isAlpha || c.isDigit || c = '_'

/-- Model of the regex class `[\w\-]`. -/
def isWordDash (c : Char) : Bool := isWordCh c || c = '-'

/-- Model of the regex class `[\w\-\.]`. -/
def isWordDashDot (c : Char) : Bool := isWordDash c || c = '.'

/-- Model of the regex class `[a-zA-Z0-9]`. -/
def isAl (c : Char) : Bool := c.isAlpha || c.isDigit

/-! ## Matcher combinators.
A matcher takes the text starting at the current position and returns
`some n` when the regex piece matches consuming exactly `n` characters,
or `none` when it fails.  The combinators below implement the greedy,
non-backtracking behaviour; for the four default scrub patterns this is
provably the same as Python regex backtracking because in each junction
the adjacent character classes are disjoint (see the comments at the
pattern definitions). -/

/-- Number of leading characters of `s` satisfying `f` (the greedy run). -/
def lead (f : Char → Bool) : Str → Nat
  | [] => 0
  | c :: cs => if f c = true then lead f cs + 1 else 0

/-- Literal matcher: each table entry lists the two accepted characters at
that position (for case-insensitive literals the lower and upper case forms,
for case-sensitive literals the character twice). -/
def litP : List (Char × Char) → Str → Option Nat
  | [], _ => some 0
  | _ :: _, [] => none
  | (l, u) :: ks, c :: cs =>
    if c = l ∨ c = u then (litP ks cs).map (· + 1) else none

/-- Model of `x?` for a one-character class: consumes the character when it
is present and in the class, otherwise consumes nothing. -/
def mOpt (f : Char → Bool) (s : Str) : Option Nat :=
  match s with
  | c :: _ => if f c = true then some 1 else some 0
  | [] => some 0

/-- Model of `x*` for a one-character class: consumes the greedy run. -/
def mStar (f : Char → Bool) (s : Str) : Option Nat := some (lead f s)

/-- Model of a single mandatory character of a class. -/
def mOne (f : Char → Bool) (s : Str) : Option Nat :=
  match s with
  | c :: _ => if f c = true then some 1 else none
  | [] => none

/-- Model of `x+` for a one-character class: the greedy run, requiring it
to be non-empty. -/
def mPlus (f : Char → Bool) (s : Str) : Option Nat :=
  match lead f s with
  | 0 => none
  | n + 1 => some (n + 1)

/-- Model of an exact repetition `x{n}` of a one-character class. -/
def mRep (f : Char → Bool) (n : Nat) (s : Str) : Option Nat :=
  if n ≤ lead f s then some n else none

/-- Sequencing of two matchers. -/
def mseq (p q : Str → Option Nat) (s : Str) : Option Nat :=
  match p s with
  | none => none
  | some a =>
    match q (s.drop a) with
    | none => none
    | some b => some (a + b)

/-- Ordered alternation of two matchers (first that matches wins). -/
def malt (p q : Str → Option Nat) (s : Str) : Option Nat :=
  match p s with
  | some a => some a
  | none => q s

/-! ## The four default scrub patterns of `scrub_sensitive_data`.
Source, `session_recorder.py` lines 346-351. -/

/-- Case pairs for the case-insensitive literal `api`. -/
def apiT : List (Char × Char) := [('a', 'A'), ('p', 'P'), ('i', 'I')]

/-- Case pairs for the case-insensitive literal `key`. -/
def keyT : List (Char × Char) := [('k', 'K'), ('e', 'E'), ('y', 'Y')]

/-- Case pairs for the case-insensitive literal `apikey`. -/
def apikeyT : List (Char × Char) :=
  [('a', 'A'), ('p', 'P'), ('i', 'I'), ('k', 'K'), ('e', 'E'), ('y', 'Y')]

/-- Case pairs for the case-insensitive literal `secret`. -/
def secretT : List (Char × Char) :=
  [('s', 'S'), ('e', 'E'), ('c', 'C'), ('r', 'R'), ('e', 'E'), ('t', 'T')]

/-- Case pairs for the case-insensitive literal `password`. -/
def passwordT : List (Char × Char) :=
  [('p', 'P'), ('a', 'A'), ('s', 'S'), ('s', 'S'), ('w', 'W'), ('o', 'O'),
   ('r', 'R'), ('d', 'D')]

/-- Case pairs for the case-insensitive literal `token`. -/
def tokenT : List (Char × Char) :=
  [('t', 'T'), ('o', 'O'), ('k', 'K'), ('e', 'E'), ('n', 'N')]

/-- Case pairs for the case-insensitive literal `credential`. -/
def credentialT : List (Char × Char) :=
  [('c', 'C'), ('r', 'R'), ('e', 'E'), ('d', 'D'), ('e', 'E'), ('n', 'N'),
   ('t', 'T'), ('i', 'I'), ('a', 'A'), ('l', 'L')]

/-- Case pairs for the case-insensitive literal `bearer`. -/
def bearerT : List (Char × Char) :=
  [('b', 'B'), ('e', 'E'), ('a', 'A'), ('r', 'R'), ('e', 'E'), ('r', 'R')]

/-- Case-sensitive table for the literal `ghp_`. -/
def ghpT : List (Char × Char) := [('g', 'g'), ('h', 'h'), ('p', 'p'), ('_', '_')]

/-- Case-sensitive table for the literal `sk-`. -/
def skT : List (Char × Char) := [('s', 's'), ('k', 'k'), ('-', '-')]

/-- Underscore or dash, the class `[_-]`. -/
def udash (c : Char) : Bool := c = '_' || c = '-'

/-- The keyword alternative `api[_-]?key`. -/
def kwApiKey : Str → Option Nat := mseq (litP apiT) (mseq (mOpt udash) (litP keyT))

/-- The keyword group
`(api[_-]?key|apikey|secret|password|token|credential)` of the first
default pattern, alternatives tried in source order. -/
def kwAll : Str → Option Nat :=
  malt kwApiKey (malt (litP apikeyT) (malt (litP secretT)
    (malt (litP passwordT) (malt (litP tokenT) (litP credentialT)))))

/-- Matcher for default pattern 1,
`(?i)(api[_-]?key|apikey|secret|password|token|credential)["\']?\s*[:=]\s*["\']?[\w\-]+`.
Greedy commitment agrees with Python backtracking here: a quote character is
neither whitespace nor `[:=]` nor a word character, and whitespace is not in
`[:=]`, so shortening any greedy piece can never rescue a failed parse. -/
def pat1 : Str → Option Nat :=
  mseq kwAll (mseq (mOpt isQuoteCh) (mseq (mStar isWsCh) (mseq (mOne isSepCh)
    (mseq (mStar isWsCh) (mseq (mOpt isQuoteCh) (mPlus isWordDash))))))

/-- Matcher for default pattern 2, `(?i)bearer\s+[\w\-\.]+`.  Again the two
greedy classes are disjoint, so no backtracking is observable. -/
def pat2 : Str → Option Nat :=
  mseq (litP bearerT) (mseq (mPlus isWsCh) (mPlus isWordDashDot))

/-- Matcher for default pattern 3, `ghp_[a-zA-Z0-9]{36}` (GitHub PAT). -/
def pat3 : Str → Option Nat := mseq (litP ghpT) (mRep isAl 36)

/-- Matcher for default pattern 4, `sk-[a-zA-Z0-9]{48}` (OpenAI key). -/
def pat4 : Str → Option Nat := mseq (litP skT) (mRep isAl 48)

/-- The redaction marker `[REDACTED]`. -/
def markerL : Str := ['[', 'R', 'E', 'D', 'A', 'C', 'T', 'E', 'D', ']']

/-- Worker of the substitution: the counter says how many characters of a
match already replaced by the marker are still to be skipped.  The
recursion is structural on the text, so the function evaluates by plain
reduction. -/
def substSkip (m : Str → Option Nat) : Nat → Str → Str
  | _, [] => []
  | k + 1, _ :: cs => substSkip m k cs
  | 0, c :: cs =>
    match m (c :: cs) with
    | some (n + 1) => markerL ++ substSkip m n cs
    | _ => c :: substSkip m 0 cs

/-- Model of `re.sub(pattern, marker, text)`: scan left to right, replace
each leftmost non-overlapping match with the marker and continue after it.
A `some 0` result is treated as no match; the four default patterns never
match the empty string (each starts with a non-empty literal). -/
def subst (m : Str → Option Nat) (s : Str) : Str := substSkip m 0 s

/-- Skipping counts the same as dropping. -/
theorem substSkip_drop (m : Str → Option Nat) :
    ∀ (n : Nat) (s : Str), substSkip m n s = substSkip m 0 (s.drop n) := by
  intro n
  induction n with
  | zero =>
    intro s
    rw [List.drop_zero]
  | succ k ih =>
    intro s
    cases s with
    | nil => rfl
    | cons c cs =>
      rw [List.drop_succ_cons]
      exact ih cs

/-- An induction principle following the recursion of `subst`. -/
theorem subst_induction (m : Str → Option Nat) (motive : Str → Prop)
    (h1 : motive [])
    (h2 : ∀ c cs n, m (c :: cs) = some (n + 1) → motive (cs.drop n) →
      motive (c :: cs))
    (h3 : ∀ c cs, (∀ n, m (c :: cs) = some (n + 1) → False) → motive cs →
      motive (c :: cs)) :
    ∀ s, motive s := by
  have hfuel : ∀ (k : Nat) (s : Str), s.length ≤ k → motive s := by
    intro k
    induction k with
    | zero =>
      intro s hs
      cases s with
      | nil => exact h1
      | cons c cs => simp at hs
    | succ k ih =>
      intro s hs
      cases s with
      | nil => exact h1
      | cons c cs =>
        simp only [List.length_cons, Nat.succ_le_succ_iff] at hs
        cases hm : m (c :: cs) with
        | some nn =>
          cases nn with
          | zero =>
            refine h3 c cs (by simp [hm]) (ih cs hs)
          | succ n =>
            refine h2 c cs n hm (ih (cs.drop n) ?_)
            simp only [List.length_drop]
            omega
        | none =>
          refine h3 c cs (by simp [hm]) (ih cs hs)
  exact fun s => hfuel s.length s le_rfl

/-- Model of the inner `scrub_text` of `scrub_sensitive_data` with the
default pattern list: the four substitutions applied in source order. -/
def scrubText (s : Str) : Str := subst pat4 (subst pat3 (subst pat2 (subst pat1 s)))

/-! ## Generic matcher properties.
`MidDet`: a successful parse is determined by the consumed characters plus
at most one character of lookahead.  `TailGood`: a successful parse consumes
at least one character and survives any replacement of the text after the
consumed span.  `BrFree`: a match never contains a square bracket (the
redaction marker is delimited by brackets, so matches cannot straddle it). -/

/-- Success is determined by the consumed span plus one lookahead character. -/
def MidDet (p : Str → Option Nat) : Prop :=
  ∀ s a, p s = some a →
    a ≤ s.length ∧ ∀ t, s.take (a + 1) = t.take (a + 1) → p t = some a

/-- A successful parse is non-empty and stable under replacing the suffix
after the consumed span. -/
def TailGood (p : Str → Option Nat) : Prop :=
  ∀ s a, p s = some a →
    1 ≤ a ∧ a ≤ s.length ∧ ∀ z, ∃ b, p (s.take a ++ z) = some b

/-- Matches contain no square bracket character. -/
def BrFree (p : Str → Option Nat) : Prop :=
  ∀ s a, p s = some a → ∀ c ∈ s.take a, c ≠ '[' ∧ c ≠ ']'

theorem take_agree_mono {s t : Str} {m n : Nat}
    (h : s.take m = t.take m) (hnm : n ≤ m) : s.take n = t.take n := by
  have h2 := congrArg (List.take n) h
  rwa [List.take_take, List.take_take, Nat.min_eq_left hnm] at h2

theorem lead_le (f : Char → Bool) : ∀ s : Str, lead f s ≤ s.length := by
  intro s
  induction s with
  | nil => simp [lead]
  | cons c cs ih =>
    simp only [lead, List.length_cons]
    split
    · omega
    · omega

theorem lead_take_all (f : Char → Bool) :
    ∀ s : Str, ∀ c ∈ s.take (lead f s), f c = true := by
  intro s
  induction s with
  | nil => simp [lead]
  | cons c cs ih =>
    by_cases h : f c = true
    · simp only [lead, h, if_pos, List.take_succ_cons, List.mem_cons]
      rintro d (rfl | hd)
      · exact h
      · exact ih d hd
    · simp [lead, h]

theorem take_all_of_le_lead (f : Char → Bool) :
    ∀ (s : Str) (n : Nat), n ≤ lead f s → ∀ c ∈ s.take n, f c = true := by
  intro s
  induction s with
  | nil => simp
  | cons c cs ih =>
    intro n hn d hd
    by_cases h : f c = true
    · cases n with
      | zero => simp at hd
      | succ m =>
        simp only [List.take_succ_cons, List.mem_cons] at hd
        rcases hd with rfl | hd
        · exact h
        · refine ih m ?_ d hd
          simp only [lead, h, if_pos] at hn
          omega
    · simp only [lead, h, Bool.false_eq_true, if_false, Nat.le_zero] at hn
      subst hn
      simp at hd

theorem lead_ge_of_take_all (f : Char → Bool) :
    ∀ (s : Str) (n : Nat), n ≤ s.length → (∀ c ∈ s.take n, f c = true) →
      n ≤ lead f s := by
  intro s
  induction s with
  | nil => simp
  | cons c cs ih =>
    intro n hn hall
    cases n with
    | zero => omega
    | succ m =>
      have hc : f c = true := hall c (by simp [List.take_succ_cons])
      simp only [lead, hc, if_pos]
      have hm := ih m (by simpa using hn)
        (fun d hd => hall d (by simp [List.take_succ_cons, hd]))
      omega

theorem lead_eq_of_take_agree (f : Char → Bool) :
    ∀ (s t : Str) (n : Nat), lead f s = n → s.take (n + 1) = t.take (n + 1) →
      lead f t = n := by
  intro s
  induction s with
  | nil =>
    intro t n h1 h2
    simp only [lead] at h1
    subst h1
    simp only [List.take_nil] at h2
    cases t with
    | nil => simp [lead]
    | cons a as => simp at h2
  | cons c cs ih =>
    intro t n h1 h2
    by_cases h : f c = true
    · simp only [lead, h, if_pos] at h1
      subst h1
      cases t with
      | nil => simp at h2
      | cons d ds =>
        simp only [List.take_succ_cons, List.cons.injEq] at h2
        obtain ⟨rfl, h3⟩ := h2
        simp only [lead, h, if_pos]
        rw [ih ds (lead f cs) rfl h3]
    · simp only [lead, h, if_neg] at h1
      subst h1
      cases t with
      | nil => simp at h2
      | cons d ds =>
        simp only [List.take_succ_cons, List.cons.injEq] at h2
        obtain ⟨rfl, -⟩ := h2
        simp [lead, h]

theorem lead_append_all (f : Char → Bool) :
    ∀ (x z : Str), (∀ c ∈ x, f c = true) →
      lead f (x ++ z) = x.length + lead f z := by
  intro x
  induction x with
  | nil => simp
  | cons c cs ih =>
    intro z hall
    have hc : f c = true := hall c (by simp)
    simp only [List.cons_append, lead, hc, if_pos, List.length_cons, List.append_eq]
    rw [ih z (fun d hd => hall d (by simp [hd]))]
    omega

theorem mseq_eq_some {p q : Str → Option Nat} {s : Str} {n : Nat} :
    mseq p q s = some n ↔
      ∃ a b, p s = some a ∧ q (s.drop a) = some b ∧ n = a + b := by
  unfold mseq
  cases hps : p s with
  | none => simp
  | some a =>
    dsimp only
    cases hqs : q (s.drop a) with
    | none =>
      simp only [false_iff, reduceCtorEq]
      rintro ⟨a2, b2, ha2, hb2, rfl⟩
      simp only [Option.some.injEq] at ha2
      subst ha2
      rw [hqs] at hb2
      exact absurd hb2 (by simp)
    | some b =>
      dsimp only
      constructor
      · intro h
        simp only [Option.some.injEq] at h
        exact ⟨a, b, rfl, hqs, h.symm⟩
      · rintro ⟨a2, b2, ha2, hb2, rfl⟩
        simp only [Option.some.injEq] at ha2
        subst ha2
        rw [hqs] at hb2
        simp only [Option.some.injEq] at hb2
        subst hb2
        rfl

theorem mseq_some_intro {p q : Str → Option Nat} {s : Str} {a b : Nat}
    (h1 : p s = some a) (h2 : q (s.drop a) = some b) :
    mseq p q s = some (a + b) :=
  mseq_eq_some.mpr ⟨a, b, h1, h2, rfl⟩

theorem mseq_none_left {p q : Str → Option Nat} {s : Str}
    (h : p s = none) : mseq p q s = none := by
  unfold mseq
  rw [h]

theorem litP_len : ∀ (ks : List (Char × Char)) (s : Str) (a : Nat),
    litP ks s = some a → a = ks.length ∧ a ≤ s.length := by
  intro ks
  induction ks with
  | nil =>
    intro s a h
    simp only [litP, Option.some.injEq] at h
    subst h
    simp
  | cons pr ks ih =>
    intro s a h
    obtain ⟨l, u⟩ := pr
    cases s with
    | nil => simp [litP] at h
    | cons c cs =>
      simp only [litP] at h
      split at h
      · cases hh : litP ks cs with
        | none => rw [hh] at h; simp at h
        | some b =>
          rw [hh] at h
          simp only [Option.map_some', Option.some.injEq] at h
          obtain ⟨h1, h2⟩ := ih cs b hh
          simp only [List.length_cons]
          omega
      · exact absurd h (by simp)

theorem litP_det : ∀ (ks : List (Char × Char)) (s t : Str) (a : Nat),
    litP ks s = some a → s.take a = t.take a → litP ks t = some a := by
  intro ks
  induction ks with
  | nil =>
    intro s t a h _
    simp only [litP, Option.some.injEq] at h
    simp [litP, ← h]
  | cons pr ks ih =>
    intro s t a h hagree
    obtain ⟨l, u⟩ := pr
    cases s with
    | nil => simp [litP] at h
    | cons c cs =>
      simp only [litP] at h
      split at h
      · rename_i hcond
        cases hh : litP ks cs with
        | none => rw [hh] at h; simp at h
        | some b =>
          rw [hh] at h
          simp only [Option.map_some', Option.some.injEq] at h
          subst h
          simp only [List.take_succ_cons] at hagree
          cases t with
          | nil => simp at hagree
          | cons d ds =>
            simp only [List.take_succ_cons, List.cons.injEq] at hagree
            obtain ⟨rfl, h3⟩ := hagree
            simp only [litP, if_pos hcond]
            rw [ih cs ds b hh h3]
            rfl
      · exact absurd h (by simp)

theorem litP_chars : ∀ (ks : List (Char × Char)) (s : Str) (a : Nat),
    litP ks s = some a → ∀ c ∈ s.take a, ∃ pr ∈ ks, c = pr.1 ∨ c = pr.2 := by
  intro ks
  induction ks with
  | nil =>
    intro s a h
    simp only [litP, Option.some.injEq] at h
    subst h
    simp
  | cons pr ks ih =>
    intro s a h d hd
    obtain ⟨l, u⟩ := pr
    cases s with
    | nil => simp [litP] at h
    | cons c cs =>
      simp only [litP] at h
      split at h
      · rename_i hcond
        cases hh : litP ks cs with
        | none => rw [hh] at h; simp at h
        | some b =>
          rw [hh] at h
          simp only [Option.map_some', Option.some.injEq] at h
          subst h
          simp only [List.take_succ_cons, List.mem_cons] at hd
          rcases hd with rfl | hd
          · exact ⟨(l, u), by simp, hcond⟩
          · obtain ⟨pr2, hpr2, hor⟩ := ih cs b hh d hd
            exact ⟨pr2, by simp [hpr2], hor⟩
      · exact absurd h (by simp)

theorem litP_head {l u : Char} {ks : List (Char × Char)} {c : Char} {cs : Str}
    {a : Nat} (h : litP ((l, u) :: ks) (c :: cs) = some a) : c = l ∨ c = u := by
  simp only [litP] at h
  split at h
  · assumption
  · exact absurd h (by simp)

theorem litP_head_none {l u : Char} {ks : List (Char × Char)} {c : Char}
    {cs : Str} (h1 : c ≠ l) (h2 : c ≠ u) :
    litP ((l, u) :: ks) (c :: cs) = none := by
  simp [litP, h1, h2]

theorem midDet_litP (ks : List (Char × Char)) : MidDet (litP ks) := by
  intro s a h
  refine ⟨(litP_len ks s a h).2, fun t ht => ?_⟩
  exact litP_det ks s t a h (take_agree_mono ht (by omega))

theorem midDet_mOpt {f : Char → Bool} : MidDet (mOpt f) := by
  intro s a h
  cases s with
  | nil =>
    simp only [mOpt, Option.some.injEq] at h
    subst h
    refine ⟨by simp, fun t ht => ?_⟩
    simp only [List.take_nil] at ht
    cases t with
    | nil => rfl
    | cons d ds => simp at ht
  | cons c cs =>
    simp only [mOpt] at h
    split at h <;> rename_i hc <;>
      simp only [Option.some.injEq] at h <;> subst h
    · refine ⟨by simp, fun t ht => ?_⟩
      cases t with
      | nil => simp at ht
      | cons d ds =>
        simp only [List.take_succ_cons, List.cons.injEq] at ht
        obtain ⟨rfl, -⟩ := ht
        simp [mOpt, hc]
    · refine ⟨by simp, fun t ht => ?_⟩
      cases t with
      | nil => simp [mOpt]
      | cons d ds =>
        simp only [List.take_succ_cons, List.cons.injEq] at ht
        obtain ⟨rfl, -⟩ := ht
        simp [mOpt, hc]

theorem midDet_mOne {f : Char → Bool} : MidDet (mOne f) := by
  intro s a h
  cases s with
  | nil => simp [mOne] at h
  | cons c cs =>
    simp only [mOne] at h
    split at h
    · rename_i hc
      simp only [Option.some.injEq] at h
      subst h
      refine ⟨by simp, fun t ht => ?_⟩
      cases t with
      | nil => simp at ht
      | cons d ds =>
        simp only [List.take_succ_cons, List.cons.injEq] at ht
        obtain ⟨rfl, -⟩ := ht
        simp [mOne, hc]
    · exact absurd h (by simp)

theorem midDet_mStar {f : Char → Bool} : MidDet (mStar f) := by
  intro s a h
  simp only [mStar, Option.some.injEq] at h
  refine ⟨h ▸ lead_le f s, fun t ht => ?_⟩
  simp only [mStar, Option.some.injEq]
  exact lead_eq_of_take_agree f s t a h ht

theorem midDet_mPlus {f : Char → Bool} : MidDet (mPlus f) := by
  intro s a h
  simp only [mPlus] at h
  cases hl : lead f s with
  | zero => rw [hl] at h; simp at h
  | succ n =>
    rw [hl] at h
    simp only [Option.some.injEq] at h
    subst h
    refine ⟨hl ▸ lead_le f s, fun t ht => ?_⟩
    simp only [mPlus]
    rw [lead_eq_of_take_agree f s t (n + 1) hl ht]

theorem midDet_mRep {f : Char → Bool} {n : Nat} : MidDet (mRep f n) := by
  intro s a h
  simp only [mRep] at h
  split at h
  · rename_i hle
    simp only [Option.some.injEq] at h
    subst h
    have hlen : n ≤ s.length := le_trans hle (lead_le f s)
    refine ⟨hlen, fun t ht => ?_⟩
    have htake : s.take n = t.take n := take_agree_mono ht (by omega)
    have hall : ∀ c ∈ t.take n, f c = true := by
      rw [← htake]
      exact take_all_of_le_lead f s n hle
    have hlent : n ≤ t.length := by
      have h2 := congrArg List.length ht
      simp only [List.length_take] at h2
      omega
    have := lead_ge_of_take_all f t n hlent hall
    simp [mRep, this]
  · exact absurd h (by simp)

theorem tailGood_mPlus {f : Char → Bool} : TailGood (mPlus f) := by
  intro s a h
  simp only [mPlus] at h
  cases hl : lead f s with
  | zero => rw [hl] at h; simp at h
  | succ n =>
    rw [hl] at h
    simp only [Option.some.injEq] at h
    subst h
    refine ⟨by omega, hl ▸ lead_le f s, fun z => ?_⟩
    have hall : ∀ c ∈ s.take (n + 1), f c = true := by
      rw [← hl]
      exact lead_take_all f s
    have hlen : (s.take (n + 1)).length = n + 1 := by
      have := hl ▸ lead_le f s
      simp only [List.length_take]
      omega
    refine ⟨n + lead f z + 1, ?_⟩
    simp only [mPlus]
    rw [lead_append_all f _ z hall, hlen]
    have harith : n + 1 + lead f z = (n + lead f z) + 1 := by omega
    rw [harith]

theorem tailGood_mRep {f : Char → Bool} {n : Nat} (hn : 0 < n) :
    TailGood (mRep f n) := by
  intro s a h
  simp only [mRep] at h
  split at h
  · rename_i hle
    simp only [Option.some.injEq] at h
    subst h
    have hlen : n ≤ s.length := le_trans hle (lead_le f s)
    refine ⟨hn, hlen, fun z => ?_⟩
    have hall : ∀ c ∈ s.take n, f c = true := take_all_of_le_lead f s n hle
    have hlen2 : (s.take n).length = n := by
      simp only [List.length_take]
      omega
    refine ⟨n, ?_⟩
    have hlead : lead f (s.take n ++ z) = n + lead f z := by
      rw [lead_append_all f _ z hall, hlen2]
    simp [mRep, hlead]
  · exact absurd h (by simp)

theorem midDet_mseq {p q : Str → Option Nat} (hp : MidDet p) (hq : MidDet q) :
    MidDet (mseq p q) := by
  intro s n h
  obtain ⟨a, b, hps, hqs, rfl⟩ := mseq_eq_some.mp h
  obtain ⟨haLe, hpdet⟩ := hp s a hps
  obtain ⟨hbLe, hqdet⟩ := hq _ b hqs
  simp only [List.length_drop] at hbLe
  refine ⟨by omega, fun t ht => ?_⟩
  have h1 : s.take (a + 1) = t.take (a + 1) := take_agree_mono ht (by omega)
  have hpt := hpdet t h1
  have h2 : (s.drop a).take (b + 1) = (t.drop a).take (b + 1) := by
    rw [List.take_drop, List.take_drop]
    have h3 : s.take (a + (b + 1)) = t.take (a + (b + 1)) := by
      have harith : a + (b + 1) = a + b + 1 := by omega
      rw [harith]
      exact ht
    rw [h3]
  exact mseq_some_intro hpt (hqdet (t.drop a) h2)

theorem tailGood_mseq {p q : Str → Option Nat} (hp : MidDet p) (hq : TailGood q) :
    TailGood (mseq p q) := by
  intro s n h
  obtain ⟨a, b, hps, hqs, rfl⟩ := mseq_eq_some.mp h
  obtain ⟨haLe, hpdet⟩ := hp s a hps
  obtain ⟨hb1, hb2, hqz⟩ := hq _ b hqs
  simp only [List.length_drop] at hb2
  refine ⟨by omega, by omega, fun z => ?_⟩
  have hw1 : (s.take (a + b) ++ z).take (a + 1) = s.take (a + 1) := by
    rw [List.take_append_of_le_length, List.take_take, Nat.min_eq_left (by omega)]
    simp only [List.length_take]
    omega
  have hpw := hpdet (s.take (a + b) ++ z) hw1.symm
  have hdrop : (s.take (a + b) ++ z).drop a = (s.drop a).take b ++ z := by
    rw [List.drop_append_of_le_length (by simp only [List.length_take]; omega)]
    congr 1
    rw [List.drop_take]
    congr 1
    omega
  obtain ⟨b2, hb2w⟩ := hqz z
  refine ⟨a + b2, ?_⟩
  refine mseq_some_intro hpw ?_
  rw [hdrop]
  exact hb2w

theorem brFree_litP (ks : List (Char × Char))
    (hks : ∀ pr ∈ ks, (pr.1 ≠ '[' ∧ pr.1 ≠ ']') ∧ (pr.2 ≠ '[' ∧ pr.2 ≠ ']')) :
    BrFree (litP ks) := by
  intro s a h c hc
  obtain ⟨pr, hpr, hor⟩ := litP_chars ks s a h c hc
  obtain ⟨h1, h2⟩ := hks pr hpr
  rcases hor with rfl | rfl
  · exact h1
  · exact h2

theorem brFree_class_opt {f : Char → Bool}
    (hf : ∀ c, f c = true → c ≠ '[' ∧ c ≠ ']') : BrFree (mOpt f) := by
  intro s a h c hc
  cases s with
  | nil =>
    simp only [mOpt, Option.some.injEq] at h
    subst h
    simp at hc
  | cons d ds =>
    simp only [mOpt] at h
    split at h <;> rename_i hd <;> simp only [Option.some.injEq] at h <;> subst h
    · simp only [List.take_succ_cons, List.take_zero, List.mem_singleton] at hc
      subst hc
      exact hf _ hd
    · simp at hc

theorem brFree_class_one {f : Char → Bool}
    (hf : ∀ c, f c = true → c ≠ '[' ∧ c ≠ ']') : BrFree (mOne f) := by
  intro s a h c hc
  cases s with
  | nil => simp [mOne] at h
  | cons d ds =>
    simp only [mOne] at h
    split at h
    · rename_i hd
      simp only [Option.some.injEq] at h
      subst h
      simp only [List.take_succ_cons, List.take_zero, List.mem_singleton] at hc
      subst hc
      exact hf _ hd
    · exact absurd h (by simp)

theorem brFree_class_star {f : Char → Bool}
    (hf : ∀ c, f c = true → c ≠ '[' ∧ c ≠ ']') : BrFree (mStar f) := by
  intro s a h c hc
  simp only [mStar, Option.some.injEq] at h
  subst h
  exact hf c (lead_take_all f s c hc)

theorem brFree_class_plus {f : Char → Bool}
    (hf : ∀ c, f c = true → c ≠ '[' ∧ c ≠ ']') : BrFree (mPlus f) := by
  intro s a h c hc
  simp only [mPlus] at h
  cases hl : lead f s with
  | zero => rw [hl] at h; simp at h
  | succ n =>
    rw [hl] at h
    simp only [Option.some.injEq] at h
    subst h
    exact hf c (lead_take_all f s c (hl ▸ hc))

theorem brFree_class_rep {f : Char → Bool} {n : Nat}
    (hf : ∀ c, f c = true → c ≠ '[' ∧ c ≠ ']') : BrFree (mRep f n) := by
  intro s a h c hc
  simp only [mRep] at h
  split at h
  · rename_i hle
    simp only [Option.some.injEq] at h
    subst h
    exact hf c (take_all_of_le_lead f s n hle c hc)
  · exact absurd h (by simp)

theorem brFree_mseq {p q : Str → Option Nat} (hp : BrFree p) (hq : BrFree q) :
    BrFree (mseq p q) := by
  intro s n h c hc
  obtain ⟨a, b, hps, hqs, rfl⟩ := mseq_eq_some.mp h
  rw [List.take_add, List.mem_append] at hc
  rcases hc with hc | hc
  · exact hp s a hps c hc
  · exact hq (s.drop a) b hqs c hc

theorem malt_some_left {p q : Str → Option Nat} {s : Str} {a : Nat}
    (h : p s = some a) : malt p q s = some a := by
  unfold malt
  rw [h]

theorem malt_none_left {p q : Str → Option Nat} {s : Str}
    (h : p s = none) : malt p q s = q s := by
  unfold malt
  rw [h]

theorem malt_eq_some {p q : Str → Option Nat} {s : Str} {n : Nat}
    (h : malt p q s = some n) :
    p s = some n ∨ (p s = none ∧ q s = some n) := by
  unfold malt at h
  cases hp : p s with
  | some a =>
    rw [hp] at h
    dsimp only at h
    exact Or.inl h
  | none =>
    rw [hp] at h
    dsimp only at h
    exact Or.inr ⟨rfl, h⟩

theorem brFree_malt {p q : Str → Option Nat} (hp : BrFree p) (hq : BrFree q) :
    BrFree (malt p q) := by
  intro s a h
  rcases malt_eq_some h with h1 | ⟨-, h2⟩
  · exact hp s a h1
  · exact hq s a h2

theorem litP_cons_elim {l u : Char} {ks : List (Char × Char)} {c : Char}
    {cs : Str} {a : Nat} (h : litP ((l, u) :: ks) (c :: cs) = some a) :
    (c = l ∨ c = u) ∧ ∃ b, litP ks cs = some b ∧ a = b + 1 := by
  simp only [litP] at h
  split at h
  · rename_i hcond
    cases hh : litP ks cs with
    | none => rw [hh] at h; simp at h
    | some b =>
      rw [hh] at h
      simp only [Option.map_some', Option.some.injEq] at h
      exact ⟨hcond, b, rfl, h.symm⟩
  · exact absurd h (by simp)

theorem litP_cons_intro {l u : Char} {ks : List (Char × Char)} {c : Char}
    {cs : Str} {b : Nat} (hc : c = l ∨ c = u) (h : litP ks cs = some b) :
    litP ((l, u) :: ks) (c :: cs) = some (b + 1) := by
  simp [litP, hc, h]

theorem midDet_kwApiKey : MidDet kwApiKey :=
  midDet_mseq (midDet_litP apiT) (midDet_mseq midDet_mOpt (midDet_litP keyT))

theorem kwApiKey_head_none {c : Char} {cs : Str} (h1 : c ≠ 'a') (h2 : c ≠ 'A') :
    kwApiKey (c :: cs) = none := by
  have hlit : litP apiT (c :: cs) = none := by
    simp only [apiT]
    exact litP_head_none h1 h2
  exact mseq_none_left hlit

theorem apikey_sub {s : Str} {a : Nat} (h : litP apikeyT s = some a) :
    kwApiKey s = some a := by
  rcases s with - | ⟨c0, - | ⟨c1, - | ⟨c2, - | ⟨c3, - | ⟨c4, - | ⟨c5, rest⟩⟩⟩⟩⟩⟩
  · simp [apikeyT, litP] at h
  · simp [apikeyT, litP] at h
  · simp only [apikeyT] at h
    obtain ⟨-, b1, h1, -⟩ := litP_cons_elim h
    simp [litP] at h1
  · simp only [apikeyT] at h
    obtain ⟨-, b1, h1, -⟩ := litP_cons_elim h
    obtain ⟨-, b2, h2, -⟩ := litP_cons_elim h1
    simp [litP] at h2
  · simp only [apikeyT] at h
    obtain ⟨-, b1, h1, -⟩ := litP_cons_elim h
    obtain ⟨-, b2, h2, -⟩ := litP_cons_elim h1
    obtain ⟨-, b3, h3, -⟩ := litP_cons_elim h2
    simp [litP] at h3
  · simp only [apikeyT] at h
    obtain ⟨-, b1, h1, -⟩ := litP_cons_elim h
    obtain ⟨-, b2, h2, -⟩ := litP_cons_elim h1
    obtain ⟨-, b3, h3, -⟩ := litP_cons_elim h2
    obtain ⟨-, b4, h4, -⟩ := litP_cons_elim h3
    simp [litP] at h4
  · simp only [apikeyT] at h
    obtain ⟨hc0, b1, h1, ha⟩ := litP_cons_elim h
    obtain ⟨hc1, b2, h2, hb1⟩ := litP_cons_elim h1
    obtain ⟨hc2, b3, h3, hb2⟩ := litP_cons_elim h2
    obtain ⟨hc3, b4, h4, hb3⟩ := litP_cons_elim h3
    obtain ⟨hc4, b5, h5, hb4⟩ := litP_cons_elim h4
    obtain ⟨hc5, b6, h6, hb5⟩ := litP_cons_elim h5
    simp only [litP, Option.some.injEq] at h6
    have ha6 : a = 6 := by omega
    subst ha6
    have hapi : litP apiT (c0 :: c1 :: c2 :: c3 :: c4 :: c5 :: rest) = some 3 := by
      simp only [apiT]
      have e0 : litP [] (c3 :: c4 :: c5 :: rest) = some 0 := rfl
      have e1 := litP_cons_intro hc2 e0
      have e2 := litP_cons_intro hc1 e1
      exact litP_cons_intro hc0 e2
    have hopt : mOpt udash (c3 :: c4 :: c5 :: rest) = some 0 := by
      rcases hc3 with rfl | rfl <;> simp [mOpt, udash]
    have hkey : litP keyT (c3 :: c4 :: c5 :: rest) = some 3 := by
      simp only [keyT]
      have e0 : litP [] rest = some 0 := rfl
      have e1 := litP_cons_intro hc5 e0
      have e2 := litP_cons_intro hc4 e1
      exact litP_cons_intro hc3 e2
    have hinner : mseq (mOpt udash) (litP keyT) (c3 :: c4 :: c5 :: rest) = some 3 := by
      have := mseq_some_intro hopt hkey
      simpa using this
    have := mseq_some_intro hapi hinner
    exact this

theorem midDet_kwAll : MidDet kwAll := by
  intro s n h
  unfold kwAll at h
  rcases malt_eq_some h with h1 | ⟨h1, h⟩
  · obtain ⟨hle, hdet⟩ := midDet_kwApiKey s n h1
    refine ⟨hle, fun t ht => ?_⟩
    unfold kwAll
    exact malt_some_left (hdet t ht)
  rcases malt_eq_some h with h2 | ⟨h2, h⟩
  · exact absurd (apikey_sub h2) (by simp [h1])
  rcases malt_eq_some h with h3 | ⟨h3, h⟩
  · obtain ⟨hle, hdet⟩ := midDet_litP secretT s n h3
    have hn6 := (litP_len secretT s n h3).1
    rcases s with - | ⟨c, cs⟩
    · simp [secretT, litP] at h3
    have hc : c = 's' ∨ c = 'S' := by
      simp only [secretT] at h3
      exact litP_head h3
    refine ⟨hle, fun t ht => ?_⟩
    have h1t : (c :: cs).take 1 = t.take 1 := take_agree_mono ht (Nat.le_add_left 1 n)
    rcases t with - | ⟨d, ds⟩
    · simp at h1t
    simp only [List.take_succ_cons, List.take_zero, List.cons.injEq] at h1t
    obtain ⟨rfl, -⟩ := h1t
    unfold kwAll
    rw [malt_none_left (kwApiKey_head_none
      (by rcases hc with rfl | rfl <;> decide) (by rcases hc with rfl | rfl <;> decide))]
    rw [malt_none_left (by
      simp only [apikeyT]
      exact litP_head_none (by rcases hc with rfl | rfl <;> decide)
        (by rcases hc with rfl | rfl <;> decide))]
    exact malt_some_left (hdet _ ht)
  rcases malt_eq_some h with h4 | ⟨h4, h⟩
  · obtain ⟨hle, hdet⟩ := midDet_litP passwordT s n h4
    have hn8 := (litP_len passwordT s n h4).1
    rcases s with - | ⟨c, cs⟩
    · simp [passwordT, litP] at h4
    have hc : c = 'p' ∨ c = 'P' := by
      simp only [passwordT] at h4
      exact litP_head h4
    refine ⟨hle, fun t ht => ?_⟩
    have h1t : (c :: cs).take 1 = t.take 1 := take_agree_mono ht (Nat.le_add_left 1 n)
    rcases t with - | ⟨d, ds⟩
    · simp at h1t
    simp only [List.take_succ_cons, List.take_zero, List.cons.injEq] at h1t
    obtain ⟨rfl, -⟩ := h1t
    unfold kwAll
    rw [malt_none_left (kwApiKey_head_none
      (by rcases hc with rfl | rfl <;> decide) (by rcases hc with rfl | rfl <;> decide))]
    rw [malt_none_left (by
      simp only [apikeyT]
      exact litP_head_none (by rcases hc with rfl | rfl <;> decide)
        (by rcases hc with rfl | rfl <;> decide))]
    rw [malt_none_left (by
      simp only [secretT]
      exact litP_head_none (by rcases hc with rfl | rfl <;> decide)
        (by rcases hc with rfl | rfl <;> decide))]
    exact malt_some_left (hdet _ ht)
  rcases malt_eq_some h with h5 | ⟨h5, h⟩
  · obtain ⟨hle, hdet⟩ := midDet_litP tokenT s n h5
    have hn5 := (litP_len tokenT s n h5).1
    rcases s with - | ⟨c, cs⟩
    · simp [tokenT, litP] at h5
    have hc : c = 't' ∨ c = 'T' := by
      simp only [tokenT] at h5
      exact litP_head h5
    refine ⟨hle, fun t ht => ?_⟩
    have h1t : (c :: cs).take 1 = t.take 1 := take_agree_mono ht (Nat.le_add_left 1 n)
    rcases t with - | ⟨d, ds⟩
    · simp at h1t
    simp only [List.take_succ_cons, List.take_zero, List.cons.injEq] at h1t
    obtain ⟨rfl, -⟩ := h1t
    unfold kwAll
    rw [malt_none_left (kwApiKey_head_none
      (by rcases hc with rfl | rfl <;> decide) (by rcases hc with rfl | rfl <;> decide))]
    rw [malt_none_left (by
      simp only [apikeyT]
      exact litP_head_none (by rcases hc with rfl | rfl <;> decide)
        (by rcases hc with rfl | rfl <;> decide))]
    rw [malt_none_left (by
      simp only [secretT]
      exact litP_head_none (by rcases hc with rfl | rfl <;> decide)
        (by rcases hc with rfl | rfl <;> decide))]
    rw [malt_none_left (by
      simp only [passwordT]
      exact litP_head_none (by rcases hc with rfl | rfl <;> decide)
        (by rcases hc with rfl | rfl <;> decide))]
    exact malt_some_left (hdet _ ht)
  · obtain ⟨hle, hdet⟩ := midDet_litP credentialT s n h
    have hn10 := (litP_len credentialT s n h).1
    rcases s with - | ⟨c, cs⟩
    · simp [credentialT, litP] at h
    have hc : c = 'c' ∨ c = 'C' := by
      simp only [credentialT] at h
      exact litP_head h
    refine ⟨hle, fun t ht => ?_⟩
    have h1t : (c :: cs).take 1 = t.take 1 := take_agree_mono ht (Nat.le_add_left 1 n)
    rcases t with - | ⟨d, ds⟩
    · simp at h1t
    simp only [List.take_succ_cons, List.take_zero, List.cons.injEq] at h1t
    obtain ⟨rfl, -⟩ := h1t
    unfold kwAll
    rw [malt_none_left (kwApiKey_head_none
      (by rcases hc with rfl | rfl <;> decide) (by rcases hc with rfl | rfl <;> decide))]
    rw [malt_none_left (by
      simp only [apikeyT]
      exact litP_head_none (by rcases hc with rfl | rfl <;> decide)
        (by rcases hc with rfl | rfl <;> decide))]
    rw [malt_none_left (by
      simp only [secretT]
      exact litP_head_none (by rcases hc with rfl | rfl <;> decide)
        (by rcases hc with rfl | rfl <;> decide))]
    rw [malt_none_left (by
      simp only [passwordT]
      exact litP_head_none (by rcases hc with rfl | rfl <;> decide)
        (by rcases hc with rfl | rfl <;> decide))]
    rw [malt_none_left (by
      simp only [tokenT]
      exact litP_head_none (by rcases hc with rfl | rfl <;> decide)
        (by rcases hc with rfl | rfl <;> decide))]
    exact hdet _ ht

/-! ## Properties of the substitution pass.
The bundle `PatOk` collects what the idempotence proof needs from each
default pattern: it never matches the empty string (every match consumes at
least one character), a match survives replacing the text after its span,
a match never contains a square bracket, and no suffix position inside the
redaction marker starts a match. -/

/-- Well-behavedness bundle for a scrub pattern matcher. -/
structure PatOk (m : Str → Option Nat) : Prop where
  nilNone : m [] = none
  tail : TailGood m
  br : BrFree m
  markerNone : ∀ (x : Str) (p : Nat), p < 10 → m ((markerL ++ x).drop p) = none

/-- The text has no match of `m` at any position. -/
def CleanStr (m : Str → Option Nat) (s : Str) : Prop :=
  ∀ p : Nat, m (s.drop p) = none

theorem cleanStr_nil {m : Str → Option Nat} (hm : PatOk m) : CleanStr m [] := by
  intro p
  simp only [List.drop_nil]
  exact hm.nilNone

theorem cleanStr_cons_elim {m : Str → Option Nat} {c : Char} {cs : Str}
    (h : CleanStr m (c :: cs)) : CleanStr m cs := by
  intro p
  have h2 := h (p + 1)
  simpa using h2

theorem cleanStr_drop {m : Str → Option Nat} {s : Str} (h : CleanStr m s)
    (k : Nat) : CleanStr m (s.drop k) := by
  intro p
  rw [List.drop_drop]
  exact h (k + p)

theorem subst_cons_match {m : Str → Option Nat} {c : Char} {cs : Str} {n : Nat}
    (h : m (c :: cs) = some (n + 1)) :
    subst m (c :: cs) = markerL ++ subst m (cs.drop n) := by
  show substSkip m 0 (c :: cs) = markerL ++ substSkip m 0 (cs.drop n)
  simp only [substSkip, h]
  rw [substSkip_drop]

theorem subst_cons_keep {m : Str → Option Nat} {c : Char} {cs : Str}
    (h : ∀ n, m (c :: cs) = some (n + 1) → False) :
    subst m (c :: cs) = c :: subst m cs := by
  show substSkip m 0 (c :: cs) = c :: substSkip m 0 cs
  cases hm : m (c :: cs) with
  | none => simp [substSkip, hm]
  | some k =>
    cases k with
    | zero => simp [substSkip, hm]
    | succ n => exact (h n hm).elim

theorem subst_structure (m : Str → Option Nat) (cs : Str) :
    subst m cs = cs ∨
      ∃ k rest, k ≤ cs.length ∧ subst m cs = cs.take k ++ '[' :: rest := by
  induction cs using subst_induction m with
  | h1 => exact Or.inl rfl
  | h2 c cs n hmatch ih =>
    right
    refine ⟨0, markerL.tail ++ subst m (cs.drop n), by simp, ?_⟩
    rw [subst_cons_match hmatch]
    rfl
  | h3 c cs hno ih =>
    rw [subst_cons_keep hno]
    rcases ih with heq | ⟨k, rest, hk, heq⟩
    · left
      rw [heq]
    · right
      refine ⟨k + 1, rest, by simp; omega, ?_⟩
      rw [heq, List.take_succ_cons]
      rfl

theorem subst_head_none {mi mj : Str → Option Nat} (hi : PatOk mi)
    {c : Char} {cs : Str} (h : mi (c :: cs) = none) :
    mi (c :: subst mj cs) = none := by
  rcases subst_structure mj cs with heq | ⟨k, rest, hk, heq⟩
  · rw [heq]
    exact h
  · cases hs : mi (c :: subst mj cs) with
    | none => rfl
    | some n =>
      exfalso
      obtain ⟨hn1, hn2, hz⟩ := hi.tail _ n hs
      by_cases hcase : n ≤ k + 1
      · have htk : (c :: subst mj cs).take n = (c :: cs).take n := by
          rw [heq]
          cases n with
          | zero => simp
          | succ n2 =>
            simp only [List.take_succ_cons, List.cons.injEq, true_and]
            rw [List.take_append_eq_append_take]
            have hlk : (cs.take k).length = k := by
              simp only [List.length_take]
              omega
            have hz2 : n2 - (cs.take k).length = 0 := by omega
            rw [hz2, List.take_zero, List.append_nil, List.take_take]
            congr 1
            omega
        obtain ⟨b, hb⟩ := hz ((c :: cs).drop n)
        rw [htk, List.take_append_drop] at hb
        rw [h] at hb
        exact absurd hb (by simp)
      · have hmem : '[' ∈ (c :: subst mj cs).take n := by
          rw [heq]
          cases n with
          | zero => omega
          | succ n2 =>
            simp only [List.take_succ_cons, List.mem_cons]
            right
            rw [List.take_append_eq_append_take]
            have hlk : (cs.take k).length = k := by
              simp only [List.length_take]
              omega
            rw [List.mem_append]
            right
            have : n2 - (cs.take k).length = (n2 - k - 1) + 1 := by omega
            rw [this, List.take_succ_cons]
            simp
        have hbr := hi.br _ n hs '[' hmem
        exact hbr.1 rfl

theorem cleanStr_subst_eq {m : Str → Option Nat} {s : Str}
    (hcl : CleanStr m s) : subst m s = s := by
  induction s with
  | nil => rfl
  | cons c cs ih =>
    have h0 : m (c :: cs) = none := by
      have := hcl 0
      simpa using this
    rw [subst_cons_keep (by intro n hn; rw [h0] at hn; exact absurd hn (by simp))]
    rw [ih (cleanStr_cons_elim hcl)]

theorem cleanStr_marker_append {m : Str → Option Nat} (hm : PatOk m) {x : Str}
    (hx : CleanStr m x) : CleanStr m (markerL ++ x) := by
  intro p
  by_cases hp : p < 10
  · exact hm.markerNone x p hp
  · have hq : p = 10 + (p - 10) := by omega
    rw [hq]
    have h10 : (10 : Nat) = markerL.length := rfl
    rw [h10, List.drop_append (p - markerL.length)]
    exact hx _

theorem cleanStr_subst_self {m : Str → Option Nat} (hm : PatOk m) :
    ∀ t : Str, CleanStr m (subst m t) := by
  intro t
  induction t using subst_induction m with
  | h1 =>
    rw [show subst m [] = [] from rfl]
    exact cleanStr_nil hm
  | h2 c cs n hmatch ih =>
    rw [subst_cons_match hmatch]
    exact cleanStr_marker_append hm ih
  | h3 c cs hno ih =>
    rw [subst_cons_keep hno]
    intro p
    cases p with
    | zero =>
      simp only [List.drop_zero]
      have h0 : m (c :: cs) = none := by
        cases hm0 : m (c :: cs) with
        | none => rfl
        | some k =>
          cases k with
          | zero =>
            obtain ⟨h1, -, -⟩ := hm.tail _ 0 hm0
            omega
          | succ n2 => exact (hno n2 hm0).elim
      exact subst_head_none hm h0
    | succ q =>
      simp only [List.drop_succ_cons]
      exact ih q

theorem cleanStr_subst_preserve {mi mj : Str → Option Nat} (hi : PatOk mi) :
    ∀ t : Str, CleanStr mi t → CleanStr mi (subst mj t) := by
  intro t
  induction t using subst_induction mj with
  | h1 =>
    rw [show subst mj [] = [] from rfl]
    exact fun _ => cleanStr_nil hi
  | h2 c cs n hmatch ih =>
    intro hcl
    rw [subst_cons_match hmatch]
    refine cleanStr_marker_append hi (ih ?_)
    exact cleanStr_drop (cleanStr_cons_elim hcl) n
  | h3 c cs hno ih =>
    intro hcl
    rw [subst_cons_keep hno]
    intro p
    cases p with
    | zero =>
      simp only [List.drop_zero]
      have h0 : mi (c :: cs) = none := by
        have h00 := hcl 0
        simpa using h00
      exact subst_head_none hi h0
    | succ q =>
      simp only [List.drop_succ_cons]
      exact ih (cleanStr_cons_elim hcl) q

/-! ## The four default patterns are well behaved. -/

theorem br_isQuoteCh : ∀ c, isQuoteCh c = true → c ≠ '[' ∧ c ≠ ']' := by
  intro c hc
  constructor <;> rintro rfl <;> exact absurd hc (by decide)

theorem br_isWsCh : ∀ c, isWsCh c = true → c ≠ '[' ∧ c ≠ ']' := by
  intro c hc
  constructor <;> rintro rfl <;> exact absurd hc (by decide)

theorem br_isSepCh : ∀ c, isSepCh c = true → c ≠ '[' ∧ c ≠ ']' := by
  intro c hc
  constructor <;> rintro rfl <;> exact absurd hc (by decide)

theorem br_isWordDash : ∀ c, isWordDash c = true → c ≠ '[' ∧ c ≠ ']' := by
  intro c hc
  constructor <;> rintro rfl <;> exact absurd hc (by decide)

theorem br_isWordDashDot : ∀ c, isWordDashDot c = true → c ≠ '[' ∧ c ≠ ']' := by
  intro c hc
  constructor <;> rintro rfl <;> exact absurd hc (by decide)

theorem br_isAl : ∀ c, isAl c = true → c ≠ '[' ∧ c ≠ ']' := by
  intro c hc
  constructor <;> rintro rfl <;> exact absurd hc (by decide)

theorem br_udash : ∀ c, udash c = true → c ≠ '[' ∧ c ≠ ']' := by
  intro c hc
  constructor <;> rintro rfl <;> exact absurd hc (by decide)

theorem brFree_kwApiKey : BrFree kwApiKey :=
  brFree_mseq (brFree_litP apiT (by decide))
    (brFree_mseq (brFree_class_opt br_udash) (brFree_litP keyT (by decide)))

theorem brFree_kwAll : BrFree kwAll :=
  brFree_malt brFree_kwApiKey
    (brFree_malt (brFree_litP apikeyT (by decide))
      (brFree_malt (brFree_litP secretT (by decide))
        (brFree_malt (brFree_litP passwordT (by decide))
          (brFree_malt (brFree_litP tokenT (by decide))
            (brFree_litP credentialT (by decide))))))

theorem brFree_pat1 : BrFree pat1 :=
  brFree_mseq brFree_kwAll
    (brFree_mseq (brFree_class_opt br_isQuoteCh)
      (brFree_mseq (brFree_class_star br_isWsCh)
        (brFree_mseq (brFree_class_one br_isSepCh)
          (brFree_mseq (brFree_class_star br_isWsCh)
            (brFree_mseq (brFree_class_opt br_isQuoteCh)
              (brFree_class_plus br_isWordDash))))))

theorem brFree_pat2 : BrFree pat2 :=
  brFree_mseq (brFree_litP bearerT (by decide))
    (brFree_mseq (brFree_class_plus br_isWsCh) (brFree_class_plus br_isWordDashDot))

theorem brFree_pat3 : BrFree pat3 :=
  brFree_mseq (brFree_litP ghpT (by decide)) (brFree_class_rep br_isAl)

theorem brFree_pat4 : BrFree pat4 :=
  brFree_mseq (brFree_litP skT (by decide)) (brFree_class_rep br_isAl)

theorem tailGood_pat1 : TailGood pat1 :=
  tailGood_mseq midDet_kwAll
    (tailGood_mseq midDet_mOpt
      (tailGood_mseq midDet_mStar
        (tailGood_mseq midDet_mOne
          (tailGood_mseq midDet_mStar
            (tailGood_mseq midDet_mOpt tailGood_mPlus)))))

theorem tailGood_pat2 : TailGood pat2 :=
  tailGood_mseq (midDet_litP bearerT)
    (tailGood_mseq midDet_mPlus tailGood_mPlus)

theorem tailGood_pat3 : TailGood pat3 :=
  tailGood_mseq (midDet_litP ghpT) (tailGood_mRep (by omega))

theorem tailGood_pat4 : TailGood pat4 :=
  tailGood_mseq (midDet_litP skT) (tailGood_mRep (by omega))

theorem patOk_pat1 : PatOk pat1 :=
  ⟨rfl, tailGood_pat1, brFree_pat1, by
    intro x p hp
    interval_cases p <;> rfl⟩

theorem patOk_pat2 : PatOk pat2 :=
  ⟨rfl, tailGood_pat2, brFree_pat2, by
    intro x p hp
    interval_cases p <;> rfl⟩

theorem patOk_pat3 : PatOk pat3 :=
  ⟨rfl, tailGood_pat3, brFree_pat3, by
    intro x p hp
    interval_cases p <;> rfl⟩

theorem patOk_pat4 : PatOk pat4 :=
  ⟨rfl, tailGood_pat4, brFree_pat4, by
    intro x p hp
    interval_cases p <;> rfl⟩

/-! ## Idempotence of the default scrub. -/

theorem scrubText_cleanStr (s : Str) :
    CleanStr pat1 (scrubText s) ∧ CleanStr pat2 (scrubText s) ∧
      CleanStr pat3 (scrubText s) ∧ CleanStr pat4 (scrubText s) := by
  unfold scrubText
  refine ⟨?_, ?_, ?_, ?_⟩
  · exact cleanStr_subst_preserve patOk_pat1 _
      (cleanStr_subst_preserve patOk_pat1 _
        (cleanStr_subst_preserve patOk_pat1 _ (cleanStr_subst_self patOk_pat1 _)))
  · exact cleanStr_subst_preserve patOk_pat2 _
      (cleanStr_subst_preserve patOk_pat2 _ (cleanStr_subst_self patOk_pat2 _))
  · exact cleanStr_subst_preserve patOk_pat3 _ (cleanStr_subst_self patOk_pat3 _)
  · exact cleanStr_subst_self patOk_pat4 _

theorem scrubText_idem (s : Str) : scrubText (scrubText s) = scrubText s := by
  obtain ⟨c1, c2, c3, c4⟩ := scrubText_cleanStr s
  conv_lhs => rw [scrubText]
  rw [cleanStr_subst_eq c1, cleanStr_subst_eq c2, cleanStr_subst_eq c3,
    cleanStr_subst_eq c4]

/-- The substitution never turns a non-empty text into the empty text. -/
theorem subst_ne_nil {m : Str → Option Nat} {c : Char} {cs : Str} :
    subst m (c :: cs) ≠ [] := by
  show substSkip m 0 (c :: cs) ≠ []
  simp only [substSkip]
  cases hm : m (c :: cs) with
  | none => simp
  | some k =>
    cases k with
    | zero => simp
    | succ n => simp [markerL]

theorem scrubText_ne_nil {s : Str} (h : s ≠ []) : scrubText s ≠ [] := by
  unfold scrubText
  cases s with
  | nil => exact absurd rfl h
  | cons c cs =>
    cases h1 : subst pat1 (c :: cs) with
    | nil => exact absurd h1 subst_ne_nil
    | cons d ds =>
      cases h2 : subst pat2 (d :: ds) with
      | nil => exact absurd h2 subst_ne_nil
      | cons e es =>
        cases h3 : subst pat3 (e :: es) with
        | nil => exact absurd h3 subst_ne_nil
        | cons f fs =>
          exact subst_ne_nil

/-! ## Data model of the session recording (dataclasses of the source).
Timestamps produced by `datetime.now().isoformat()` are passed in as
explicit arguments (`now_iso`); monotonic floats produced by `time.time()`
are passed in as explicit rational arguments (`now`). -/

/-- A parameter value of a tool call: a string (scrubbed by redaction) or
any non-string value, which redaction passes through untouched. -/
inductive PVal where
  | str (s : Str)
  | other (tag : Nat)
deriving DecidableEq

/-- Model of the `ToolCall` dataclass. -/
structure ToolCall where
  name : Str
  parameters : List (Str × PVal)
  result : Option Str
  error : Option Str
  timestamp : Str
  duration_ms : Option ℚ
  retry_count : Nat
deriving DecidableEq

/-- Model of the `Exchange` dataclass. -/
structure Exchange where
  user_prompt : Str
  assistant_response : Str
  tool_calls : List ToolCall
  timestamp : Str
  input_tokens_estimate : Option Nat
  output_tokens_estimate : Option Nat
  exchange_duration_ms : Option ℚ
deriving DecidableEq

/-- Model of the `EnvironmentContext` dataclass (the probe results of
`EnvironmentContext.capture`, which runs subprocesses, are supplied as an
explicit input wherever the source calls `capture`). -/
structure EnvironmentContext where
  os_name : Str
  os_version : Str
  shell : Str
  python_version : Str
  git_version : Option Str
  gh_cli_version : Option Str
  node_version : Option Str
  copilot_version : Option Str
  terminal : Option Str
deriving DecidableEq

/-- Model of the `SessionMetadata` dataclass. -/
structure SessionMetadata where
  session_id : Str
  model : Str
  start_time : Str
  end_time : Option Str
  working_directory : Str
  git_branch : Option Str
  log_dir : Option Str
deriving DecidableEq

/-- Model of an entry of `SessionData.errors`.  The entries are Python
dicts; `type` is `none` when the dict has no `type` key at all (which
`add_error` never produces) and `some t` when the key is present with
value `t`. -/
structure ErrorRecord where
  type : Option Str
  message : Str
  context : List (Str × PVal)
  timestamp : Str
deriving DecidableEq

/-- One structured entry extracted from a debug log line: the truncated
raw line plus one field per matching named pattern, in pattern order. -/
structure LogEntry where
  raw : Str
  fields : List (Str × Str)
deriving DecidableEq

/-- Model of an entry of `SessionData.debug_logs`: either a findings dict
with `file` and `entries` keys, or a parse-failure dict with `file` and
`error` keys. -/
inductive DebugRecord where
  | findings (file : Str) (entries : List LogEntry)
  | failure (file : Str) (error : Str)
deriving DecidableEq

/-- Model of the `SessionData` dataclass. -/
structure SessionData where
  metadata : SessionMetadata
  environment : Option EnvironmentContext
  exchanges : List Exchange
  errors : List ErrorRecord
  debug_logs : List DebugRecord
deriving DecidableEq

/-- Model of a `SessionRecorder` instance: the owned `SessionData` plus the
private cursor fields `_current_exchange`, `_exchange_start_time`,
`_tool_start_time`, `_recording` and `_log_dir`. -/
structure RecorderState where
  session : SessionData
  current_exchange : Option Exchange
  exchange_start_time : Option ℚ
  tool_start_time : Option ℚ
  recording : Bool
  log_dir : Option Str
deriving DecidableEq

/-- Python truthiness of an optional float: `None` and `0.0` are falsy. -/
def truthyQ : Option ℚ → Bool
  | none => false
  | some x => x ≠ 0

/-- Python truthiness of an optional string: `None` and the empty string
are falsy. -/
def truthyS : Option Str → Bool
  | none => false
  | some s => !s.isEmpty

/-- Model of `SessionRecorder._estimate_tokens`: `len(text) // 4`. -/
def estimate_tokens (text : Str) : Nat := text.length / 4

/-- Model of `SessionRecorder.start_recording`.  The freshly probed
environment context is an input; the source stores it only when
`capture_environment` is true.  Note the source never touches
`metadata.end_time` here. -/
def start_recording (st : RecorderState) (git_branch : Option Str)
    (capture_environment : Bool) (now_iso : Str) (env : EnvironmentContext) :
    RecorderState :=
  { st with
    recording := true
    session := { st.session with
      metadata := { st.session.metadata with
        git_branch := git_branch
        start_time := now_iso }
      environment :=
        if capture_environment then some env else st.session.environment } }

/-- Model of `SessionRecorder.add_user_prompt`.  A no-op unless recording;
otherwise opens a fresh exchange, discarding any open one. -/
def add_user_prompt (st : RecorderState) (prompt : Str) (now : ℚ)
    (now_iso : Str) : RecorderState :=
  if st.recording then
    { st with
      exchange_start_time := some now
      current_exchange := some
        { user_prompt := prompt
          assistant_response := []
          tool_calls := []
          timestamp := now_iso
          input_tokens_estimate := some (estimate_tokens prompt)
          output_tokens_estimate := none
          exchange_duration_ms := none } }
  else st

/-- Model of `SessionRecorder.add_assistant_response`.  A no-op unless
recording with an open exchange; otherwise finalizes the open exchange and
appends it to `session.exchanges`. -/
def add_assistant_response (st : RecorderState) (response : Str) (now : ℚ) :
    RecorderState :=
  if st.recording then
    match st.current_exchange with
    | none => st
    | some ex =>
      let ex2 : Exchange :=
        { ex with
          assistant_response := response
          output_tokens_estimate := some (estimate_tokens response)
          exchange_duration_ms :=
            match st.exchange_start_time with
            | some t => if t ≠ 0 then some ((now - t) * 1000) else ex.exchange_duration_ms
            | none => ex.exchange_duration_ms }
      { st with
        session := { st.session with exchanges := st.session.exchanges ++ [ex2] }
        current_exchange := none
        exchange_start_time := none }
  else st

/-- Model of `SessionRecorder.start_tool_call`. -/
def start_tool_call (st : RecorderState) (now : ℚ) : RecorderState :=
  { st with tool_start_time := some now }

/-- Model of `SessionRecorder.add_tool_call`.  A no-op unless recording
with an open exchange; otherwise appends a tool call to the open exchange,
consuming the one-shot tool timer when it is truthy. -/
def add_tool_call (st : RecorderState) (name : Str)
    (parameters : List (Str × PVal)) (result : Option Str) (error : Option Str)
    (retry_count : Nat) (now : ℚ) (now_iso : Str) : RecorderState :=
  if st.recording then
    match st.current_exchange with
    | none => st
    | some ex =>
      let dur : Option ℚ :=
        match st.tool_start_time with
        | some t => if t ≠ 0 then some ((now - t) * 1000) else none
        | none => none
      let tst : Option ℚ :=
        match st.tool_start_time with
        | some t => if t ≠ 0 then none else some t
        | none => none
      let tc : ToolCall :=
        { name := name
          parameters := parameters
          result := result
          error := error
          timestamp := now_iso
          duration_ms := dur
          retry_count := retry_count }
      { st with
        current_exchange := some { ex with tool_calls := ex.tool_calls ++ [tc] }
        tool_start_time := tst }
  else st

/-- Model of `SessionRecorder.add_error`.  A no-op unless recording;
otherwise appends an error record (always carrying a `type` key). -/
def add_error (st : RecorderState) (error_type : Str) (message : Str)
    (context : Option (List (Str × PVal))) (now_iso : Str) : RecorderState :=
  if st.recording then
    { st with
      session := { st.session with
        errors := st.session.errors ++
          [{ type := some error_type
             message := message
             context := context.getD []
             timestamp := now_iso }] } }
  else st

/-! ## The redaction pass over a session (`scrub_sensitive_data` with the
default pattern set). -/

/-- Scrub a parameter value: string values are scrubbed, all others pass
through. -/
def scrubPVal : PVal → PVal
  | .str s => .str (scrubText s)
  | .other t => .other t

/-- The result-field scrub of `scrub_sensitive_data`: `if tool_call.result:`
is Python truthiness, so an empty-string result is left as is. -/
def scrubResult : Option Str → Option Str
  | some r => if r.isEmpty then some r else some (scrubText r)
  | none => none

/-- Scrub one tool call: the truthy result text and the string-valued
parameters are scrubbed; the `error` field is not touched by the source. -/
def scrub_tool_call (tc : ToolCall) : ToolCall :=
  { tc with
    result := scrubResult tc.result
    parameters := tc.parameters.map (fun pr => (pr.1, scrubPVal pr.2)) }

/-- Scrub one exchange: prompt, response and tool calls. -/
def scrub_exchange (ex : Exchange) : Exchange :=
  { ex with
    user_prompt := scrubText ex.user_prompt
    assistant_response := scrubText ex.assistant_response
    tool_calls := ex.tool_calls.map scrub_tool_call }

/-- Model of `SessionRecorder.scrub_sensitive_data` with the default
patterns: it rewrites only the exchanges; `errors`, `debug_logs`,
`metadata` and `environment` are left untouched by the source. -/
def scrub_sensitive_data (sd : SessionData) : SessionData :=
  { sd with exchanges := sd.exchanges.map scrub_exchange }

theorem scrubPVal_idem (v : PVal) : scrubPVal (scrubPVal v) = scrubPVal v := by
  cases v with
  | str s => simp [scrubPVal, scrubText_idem]
  | other t => rfl

theorem scrubResult_idem (r : Option Str) :
    scrubResult (scrubResult r) = scrubResult r := by
  cases r with
  | none => rfl
  | some s =>
    by_cases h : s.isEmpty
    · simp [scrubResult, h]
    · have hs : s ≠ [] := by
        cases s with
        | nil => simp at h
        | cons a as => simp
      have hne : ¬(scrubText s).isEmpty := by
        have h2 := scrubText_ne_nil hs
        simpa [List.isEmpty_iff] using h2
      simp [scrubResult, h, hne, scrubText_idem]

theorem scrubParams_idem (ps : List (Str × PVal)) :
    (ps.map (fun pr => (pr.1, scrubPVal pr.2))).map (fun pr => (pr.1, scrubPVal pr.2))
      = ps.map (fun pr => (pr.1, scrubPVal pr.2)) := by
  induction ps with
  | nil => rfl
  | cons p rest ih =>
    simp only [List.map_cons, ih, List.cons.injEq, and_true]
    rw [scrubPVal_idem]

theorem scrub_tool_call_idem (tc : ToolCall) :
    scrub_tool_call (scrub_tool_call tc) = scrub_tool_call tc := by
  obtain ⟨name, params, result, error, ts, dur, retry⟩ := tc
  simp only [scrub_tool_call, ToolCall.mk.injEq, true_and, and_true]
  exact ⟨scrubParams_idem params, scrubResult_idem result⟩

theorem scrubTCs_idem (l : List ToolCall) :
    (l.map scrub_tool_call).map scrub_tool_call = l.map scrub_tool_call := by
  induction l with
  | nil => rfl
  | cons t rest ih =>
    simp only [List.map_cons, ih, List.cons.injEq, and_true]
    exact scrub_tool_call_idem t

theorem scrub_exchange_idem (ex : Exchange) :
    scrub_exchange (scrub_exchange ex) = scrub_exchange ex := by
  obtain ⟨up, ar, tcs, ts, it, ot, dur⟩ := ex
  simp only [scrub_exchange, Exchange.mk.injEq, true_and, and_true,
    scrubText_idem]
  exact scrubTCs_idem tcs

theorem scrub_sensitive_data_idem (sd : SessionData) :
    scrub_sensitive_data (scrub_sensitive_data sd) = scrub_sensitive_data sd := by
  obtain ⟨md, env, exs, errs, dbg⟩ := sd
  simp only [scrub_sensitive_data, SessionData.mk.injEq, true_and, and_true]
  induction exs with
  | nil => rfl
  | cons e rest ih =>
    simp only [List.map_cons, ih, List.cons.injEq, and_true]
    exact scrub_exchange_idem e

/-! ## Timestamp parsing and statistics.
`datetime.fromisoformat` is standard-library code, modelled here for the
naive timestamp shapes the recorder produces: `YYYY-MM-DD`, optionally
followed by `T` or a space and `HH:MM`, `HH:MM:SS` or `HH:MM:SS.ffffff`.
Any other input is a parse failure (`none`), which is what the source
turns into an absent duration via its `except` clause. -/

/-- Digit test for the parser. -/
def isDigitCh (c : Char) : Bool := c.isDigit

/-- Read exactly `k` digits, returning their value and the rest. -/
def readDigits : Nat → Str → Option (Nat × Str)
  | 0, s => some (0, s)
  | k + 1, c :: cs =>
    if c.isDigit then
      match readDigits k cs with
      | some (v, rest) => some ((c.toNat - 48) * 10 ^ k + v, rest)
      | none => none
    else none
  | _ + 1, [] => none

/-- Gregorian leap year. -/
def isLeap (y : Nat) : Bool := (y % 4 = 0 ∧ y % 100 ≠ 0) ∨ y % 400 = 0

/-- Days in a month. -/
def daysInMonth (y m : Nat) : Nat :=
  if m = 2 then (if isLeap y then 29 else 28)
  else if m = 4 ∨ m = 6 ∨ m = 9 ∨ m = 11 then 30
  else 31

/-- Day count of a civil date from the epoch 1970-01-01 (Hinnant's
days-from-civil algorithm; all intermediate quantities are non-negative
for years from 1 on). -/
def daysFromCivil (y m d : Nat) : Int :=
  let y2 : Int := if m ≤ 2 then (y : Int) - 1 else (y : Int)
  let era : Int := y2 / 400
  let yoe : Int := y2 - era * 400
  let mp : Int := ((m : Int) + 9) % 12
  let doy : Int := (153 * mp + 2) / 5 + (d : Int) - 1
  let doe : Int := yoe * 365 + yoe / 4 - yoe / 100 + doy
  era * 146097 + doe - 719468

/-- Parse the optional fractional part after the dot: one to six digits,
returned as value and digit count. -/
def parseFrac (r : Str) : Option (Nat × Nat) :=
  let k := lead isDigitCh r
  if 1 ≤ k ∧ k ≤ 6 ∧ r.drop k = [] then
    match readDigits k r with
    | some (v, _) => some (v, k)
    | none => none
  else none

/-- Parse the time-of-day part `HH:MM[:SS[.ffffff]]` to whole seconds of
the day plus an optional fraction (value and digit count). -/
def timePart (r : Str) : Option (Nat × Option (Nat × Nat)) :=
  match readDigits 2 r with
  | some (h, ':' :: r2) =>
    (match readDigits 2 r2 with
     | some (mi, r3) =>
       if h < 24 ∧ mi < 60 then
         match r3 with
         | [] => some (h * 3600 + mi * 60, none)
         | ':' :: r4 =>
           (match readDigits 2 r4 with
            | some (se, r5) =>
              if se < 60 then
                match r5 with
                | [] => some (h * 3600 + mi * 60 + se, none)
                | '.' :: r6 =>
                  (match parseFrac r6 with
                   | some vk => some (h * 3600 + mi * 60 + se, some vk)
                   | none => none)
                | _ => none
              else none
            | _ => none)
         | _ => none
       else none
     | _ => none)
  | _ => none

/-- Model of `datetime.fromisoformat` on the recorder's naive timestamps,
returning seconds from the epoch as a rational. -/
def fromisoformat (s : Str) : Option ℚ :=
  match readDigits 4 s with
  | some (y, '-' :: r2) =>
    (match readDigits 2 r2 with
     | some (mo, '-' :: r4) =>
       (match readDigits 2 r4 with
        | some (d, r5) =>
          if 1 ≤ y ∧ 1 ≤ mo ∧ mo ≤ 12 ∧ 1 ≤ d ∧ d ≤ daysInMonth y mo then
            match r5 with
            | [] => some ((daysFromCivil y mo d * 86400 : Int) : ℚ)
            | sep :: r6 =>
              if sep = 'T' ∨ sep = ' ' then
                match timePart r6 with
                | some (t, none) =>
                  some ((daysFromCivil y mo d * 86400 + (t : Int) : Int) : ℚ)
                | some (t, some (v, k)) =>
                  some (((daysFromCivil y mo d * 86400 + (t : Int) : Int) : ℚ)
                    + (v : ℚ) / ((10 ^ k : Nat) : ℚ))
                | none => none
              else none
          else none
        | _ => none)
     | _ => none)
  | _ => none

/-- Model of `SessionData._calculate_duration`: absent end time or a parse
failure of either timestamp yields `none`; otherwise the difference of the
two timestamps in seconds. -/
def calculate_duration (md : SessionMetadata) : Option ℚ :=
  match md.end_time with
  | none => none
  | some e =>
    match fromisoformat md.start_time, fromisoformat e with
    | some a, some b => some (b - a)
    | _, _ => none

/-- Python dict update `d[k] = d.get(k, 0) + 1`: an existing key is
incremented in place, a new key is appended (insertion order). -/
def dictIncr : List (Str × Nat) → Str → List (Str × Nat)
  | [], k => [(k, 1)]
  | (k2, v) :: rest, k =>
    if k2 = k then (k2, v + 1) :: rest else (k2, v) :: dictIncr rest k

/-- Dict lookup with default 0. -/
def lookupD : List (Str × Nat) → Str → Nat
  | [], _ => 0
  | (k2, v) :: rest, k => if k2 = k then v else lookupD rest k

/-- The literal `unknown`. -/
def unknownS : Str := ['u', 'n', 'k', 'n', 'o', 'w', 'n']

/-- The key an error record is counted under: `err.get("type", "unknown")`,
that is `unknown` only when the `type` key is absent altogether. -/
def typeKeyOf (e : ErrorRecord) : Str := e.type.getD unknownS

/-- The `error_types` accumulation loop of `get_statistics`. -/
def error_types (errors : List ErrorRecord) : List (Str × Nat) :=
  errors.foldl (fun d e => dictIncr d (typeKeyOf e)) []

/-- The `tool_counts` accumulation loop of `get_statistics`. -/
def tool_counts (exchanges : List Exchange) : List (Str × Nat) :=
  exchanges.foldl
    (fun d e => e.tool_calls.foldl (fun d2 tc => dictIncr d2 tc.name) d) []

/-- The flattened list of present tool durations of `get_statistics`. -/
def tool_durations (exchanges : List Exchange) : List ℚ :=
  exchanges.flatMap (fun e => e.tool_calls.filterMap (fun tc => tc.duration_ms))

/-- Result record of `SessionData.get_statistics` (the nested dict
flattened into one structure). -/
structure Statistics where
  total_exchanges : Nat
  total_tool_calls : Nat
  total_errors : Nat
  duration_seconds : Option ℚ
  total_input : Nat
  total_output : Nat
  total_tokens : Nat
  avg_duration_ms : Option ℚ
  tool_usage : List (Str × Nat)
  error_breakdown : List (Str × Nat)
deriving DecidableEq

/-- Model of `SessionData.get_statistics`. -/
def get_statistics (sd : SessionData) : Statistics :=
  let total_input := (sd.exchanges.map (fun e => e.input_tokens_estimate.getD 0)).sum
  let total_output := (sd.exchanges.map (fun e => e.output_tokens_estimate.getD 0)).sum
  let durs := tool_durations sd.exchanges
  { total_exchanges := sd.exchanges.length
    total_tool_calls := (sd.exchanges.map (fun e => e.tool_calls.length)).sum
    total_errors := sd.errors.length
    duration_seconds := calculate_duration sd.metadata
    total_input := total_input
    total_output := total_output
    total_tokens := total_input + total_output
    avg_duration_ms :=
      if durs.isEmpty then none else some (durs.sum / (durs.length : ℚ))
    tool_usage := tool_counts sd.exchanges
    error_breakdown := error_types sd.errors }

/-! ## The Debug Log Miner (`_parse_debug_logs` and `_extract_log_entries`).
Filesystem effects are explicit inputs: a `LogFile` carries the glob result
name, the stat modification time, and the outcome of `read_text` (either
the content or the exception message).  A missing log directory is the
`none` filesystem. -/

/-- Outcome of `log_file.read_text()`: the content, or the exception
message. -/
inductive ReadResult where
  | ok (content : Str)
  | err (msg : Str)
deriving DecidableEq

/-- One file found by `log_path.glob("*.log")`. -/
structure LogFile where
  name : Str
  mtime : Int
  read : ReadResult
deriving DecidableEq

/-- Stable insertion of a file into a list sorted by modification time
descending. -/
def insertByMtime (f : LogFile) : List LogFile → List LogFile
  | [] => [f]
  | g :: gs => if g.mtime < f.mtime then f :: g :: gs else g :: insertByMtime f gs

/-- Model of `sorted(log_files, key=mtime, reverse=True)` (stable,
descending by modification time). -/
def sortLogFiles (files : List LogFile) : List LogFile :=
  files.foldr insertByMtime []

/-- Leftmost-search of a matcher over a line, returning the matched text
(`match.group(0)` of `re.search`). -/
def searchIn (m : Str → Option Nat) : Str → Option Str
  | [] => (m []).map (fun n => ([] : Str).take n)
  | c :: cs =>
    match m (c :: cs) with
    | some n => some ((c :: cs).take n)
    | none => searchIn m cs

/-- Not-whitespace, the class `\S`. -/
def isNonWs (c : Char) : Bool := !isWsCh c

/-- Case pairs for `post`. -/
def postT : List (Char × Char) := [('p', 'P'), ('o', 'O'), ('s', 'S'), ('t', 'T')]

/-- Case pairs for `get`. -/
def getT : List (Char × Char) := [('g', 'G'), ('e', 'E'), ('t', 'T')]

/-- Does the text contain the case-insensitive literal `api` starting at
any position? -/
def containsApi : Str → Bool
  | [] => false
  | c :: cs => (litP apiT (c :: cs)).isSome || containsApi cs

/-- The `\S+api\S*` part of the api-call pattern.  Python backtracking
succeeds exactly when the maximal non-whitespace run has `api` at an index
of at least one, and the whole run is then consumed (the trailing `\S*` is
greedy and `api` itself is non-whitespace). -/
def apiRun (r : Str) : Option Nat :=
  let l := lead isNonWs r
  match r.take l with
  | [] => none
  | _ :: cs => if containsApi cs then some l else none

/-- Matcher for the miner pattern `(POST|GET)\s+\S+api\S*`
(IGNORECASE). -/
def patApiCall : Str → Option Nat :=
  mseq (malt (litP postT) (litP getT)) (mseq (mPlus isWsCh) apiRun)

/-- The class `[\s:]`. -/
def isSepWs (c : Char) : Bool := isWsCh c || c = ':'

/-- The class `.` of a regex without DOTALL: anything but a newline. -/
def isNotNl (c : Char) : Bool := c ≠ '\n'

/-- The `[\s:]+(.+)` tail of the error pattern.  Greedy with one observable
backtrack: when nothing non-newline follows the separator run, Python gives
the last separator character to `(.+)` provided the run has length at
least two. -/
def errRest (r : Str) : Option Nat :=
  let a := lead isSepWs r
  if a = 0 then none
  else
    let b := lead isNotNl (r.drop a)
    if b ≠ 0 then some (a + b)
    else if 2 ≤ a then some a
    else none

/-- Case pairs for `error`. -/
def errorT : List (Char × Char) :=
  [('e', 'E'), ('r', 'R'), ('r', 'R'), ('o', 'O'), ('r', 'R')]

/-- Case pairs for `warn`. -/
def warnT : List (Char × Char) := [('w', 'W'), ('a', 'A'), ('r', 'R'), ('n', 'N')]

/-- Case pairs for `warning`. -/
def warningT : List (Char × Char) :=
  [('w', 'W'), ('a', 'A'), ('r', 'R'), ('n', 'N'), ('i', 'I'), ('n', 'N'), ('g', 'G')]

/-- Matcher for the miner pattern `(ERROR|WARN|error|warning)[\s:]+(.+)`
(IGNORECASE; under IGNORECASE the third alternative repeats the first). -/
def patError : Str → Option Nat :=
  malt (mseq (litP errorT) errRest)
    (malt (mseq (litP warnT) errRest)
      (malt (mseq (litP errorT) errRest) (mseq (litP warningT) errRest)))

/-- Case pairs for `ms`. -/
def msT : List (Char × Char) := [('m', 'M'), ('s', 'S')]

/-- Matcher for the miner pattern `(\d+)ms` (IGNORECASE). -/
def patTiming : Str → Option Nat := mseq (mPlus isDigitCh) (litP msT)

/-- Case pairs for `model`. -/
def modelT : List (Char × Char) :=
  [('m', 'M'), ('o', 'O'), ('d', 'D'), ('e', 'E'), ('l', 'L')]

/-- The class `["\s:]` (double quote, whitespace or colon). -/
def isModelSep (c : Char) : Bool := c = '"' || isWsCh c || c = ':'

/-- The class `[a-zA-Z0-9\-\.]`. -/
def isAlDashDot (c : Char) : Bool := isAl c || c = '-' || c = '.'

/-- Matcher for the miner pattern `model["\s:]+([a-zA-Z0-9\-\.]+)`
(IGNORECASE). -/
def patModel : Str → Option Nat :=
  mseq (litP modelT) (mseq (mPlus isModelSep) (mPlus isAlDashDot))

/-- The optional `s` of `tokens?`. -/
def sCh (c : Char) : Bool := c = 's' || c = 'S'

/-- Case pairs for `usage`. -/
def usageT : List (Char × Char) :=
  [('u', 'U'), ('s', 'S'), ('a', 'A'), ('g', 'G'), ('e', 'E')]

/-- Matcher for the miner pattern `(tokens?|usage)["\s:]+(\d+)`
(IGNORECASE). -/
def patTokenUse : Str → Option Nat :=
  mseq (malt (mseq (litP tokenT) (mOpt sCh)) (litP usageT))
    (mseq (mPlus isModelSep) (mPlus isDigitCh))

/-- The named pattern table of `_extract_log_entries`, in source order. -/
def logPatterns : List (Str × (Str → Option Nat)) :=
  [(['a', 'p', 'i', '_', 'c', 'a', 'l', 'l'], patApiCall),
   (['e', 'r', 'r', 'o', 'r'], patError),
   (['t', 'i', 'm', 'i', 'n', 'g'], patTiming),
   (['m', 'o', 'd', 'e', 'l'], patModel),
   (['t', 'o', 'k', 'e', 'n', '_', 'u', 's', 'a', 'g', 'e'], patTokenUse)]

/-- Build the entry for one line: the raw line truncated to 500 characters
plus one field per matching pattern; `none` when no pattern matches (the
line contributes no entry). -/
def lineEntry (line : Str) : Option LogEntry :=
  let fields := logPatterns.filterMap
    (fun pr => (searchIn pr.2 line).map (fun g => (pr.1, g)))
  if fields.isEmpty then none
  else some { raw := line.take 500, fields := fields }

/-- Python `str.split` on a newline: the empty string yields one empty
piece. -/
def splitNl : Str → List Str
  | [] => [[]]
  | c :: cs =>
    if c = '\n' then [] :: splitNl cs
    else
      match splitNl cs with
      | l :: ls => (c :: l) :: ls
      | [] => [[c]]

/-- Model of `SessionRecorder._extract_log_entries` for one file: `none`
when no line qualifies (the source then appends nothing), otherwise the
findings record with the entry list truncated to the first 100. -/
def extract_log_entries (content : Str) (filename : Str) : Option DebugRecord :=
  let entries := (splitNl content).filterMap lineEntry
  if entries.isEmpty then none
  else some (DebugRecord.findings filename (entries.take 100))

/-- The literal `Failed to parse: `. -/
def failPrefix : Str :=
  ['F', 'a', 'i', 'l', 'e', 'd', ' ', 't', 'o', ' ', 'p', 'a', 'r', 's', 'e', ':', ' ']

/-- Model of the per-file loop body of `_parse_debug_logs`. -/
def parseOneFile (acc : List DebugRecord) (f : LogFile) : List DebugRecord :=
  match f.read with
  | ReadResult.ok content =>
    match extract_log_entries content f.name with
    | some rec => acc ++ [rec]
    | none => acc
  | ReadResult.err e => acc ++ [DebugRecord.failure f.name (failPrefix ++ e)]

/-- Model of `SessionRecorder._parse_debug_logs` over an existing log
directory: sort the globbed files by modification time descending, process
the first five, and return the appended findings records. -/
def parse_debug_logs (files : List LogFile) : List DebugRecord :=
  ((sortLogFiles files).take 5).foldl parseOneFile []

/-- Model of `SessionRecorder.stop_recording`.  The filesystem argument is
`none` when the configured log directory does not exist at stop time and
`some files` (the glob results) when it does.  The log directory is
consulted only when `self._log_dir` is truthy. -/
def stop_recording (st : RecorderState) (now_iso : Str)
    (fs : Option (List LogFile)) : RecorderState :=
  let st2 : RecorderState :=
    { st with
      recording := false
      session := { st.session with
        metadata := { st.session.metadata with end_time := some now_iso } } }
  if truthyS st.log_dir then
    match fs with
    | none => st2
    | some files =>
      { st2 with
        session := { st2.session with
          debug_logs := st2.session.debug_logs ++ parse_debug_logs files } }
  else st2

/-! ## Traces of recorder calls while recording (for the exchange claims). -/

/-- The three exchange-building calls of the recording API. -/
inductive REvent where
  | userPrompt (text : Str) (now : ℚ) (nowIso : Str)
  | toolCall (name : Str) (params : List (Str × PVal)) (result : Option Str)
      (error : Option Str) (retry : Nat) (now : ℚ) (nowIso : Str)
  | assistantResponse (text : Str) (now : ℚ)
deriving DecidableEq

/-- Dispatch one event to the recorder operation it models. -/
def stepEvent (st : RecorderState) : REvent → RecorderState
  | .userPrompt t now iso => add_user_prompt st t now iso
  | .toolCall nm ps r e k now iso => add_tool_call st nm ps r e k now iso
  | .assistantResponse t now => add_assistant_response st t now

/-- Run a list of events from a state. -/
def runEvents (st : RecorderState) : List REvent → RecorderState
  | [] => st
  | ev :: evs => runEvents (stepEvent st ev) evs

/-- Specification-side completed prompt/response pairs of a trace,
carrying the pending open prompt.  A new prompt overwrites the pending one
(last-prompt-wins: the overwritten prompt is discarded), and only a
response arriving while a prompt is pending appends a pair. -/
def specPairs (pending : Option Str) : List REvent → List (Str × Str)
  | [] => []
  | .userPrompt t _ _ :: r => specPairs (some t) r
  | .toolCall _ _ _ _ _ _ _ :: r => specPairs pending r
  | .assistantResponse t _ :: r =>
    match pending with
    | some p => (p, t) :: specPairs none r
    | none => specPairs none r

/-- The prompt and response texts of an exchange. -/
def pairOf (e : Exchange) : Str × Str := (e.user_prompt, e.assistant_response)

theorem runEvents_exchanges {st : RecorderState} (hrec : st.recording = true)
    (evs : List REvent) :
    ((runEvents st evs).session.exchanges).map pairOf
        = (st.session.exchanges).map pairOf
            ++ specPairs (st.current_exchange.map (fun e => e.user_prompt)) evs
      ∧ (runEvents st evs).recording = true := by
  induction evs generalizing st with
  | nil => exact ⟨by simp [runEvents, specPairs], hrec⟩
  | cons ev r ih =>
    cases ev with
    | userPrompt t now iso =>
      have hstep : stepEvent st (.userPrompt t now iso) = add_user_prompt st t now iso := rfl
      rw [runEvents, hstep]
      unfold add_user_prompt
      rw [if_pos hrec]
      obtain ⟨h1, h2⟩ := @ih { st with
        exchange_start_time := some now
        current_exchange := some
          { user_prompt := t
            assistant_response := []
            tool_calls := []
            timestamp := iso
            input_tokens_estimate := some (estimate_tokens t)
            output_tokens_estimate := none
            exchange_duration_ms := none } } hrec
      refine ⟨?_, h2⟩
      rw [h1]
      rfl
    | toolCall nm ps rr ee k now iso =>
      have hstep : stepEvent st (.toolCall nm ps rr ee k now iso)
          = add_tool_call st nm ps rr ee k now iso := rfl
      rw [runEvents, hstep]
      unfold add_tool_call
      rw [if_pos hrec]
      cases hcur : st.current_exchange with
      | none =>
        obtain ⟨h1, h2⟩ := @ih st hrec
        refine ⟨?_, h2⟩
        rw [h1]
        rw [hcur]
        rfl
      | some ex =>
        obtain ⟨h1, h2⟩ := @ih { st with
          current_exchange := some { ex with tool_calls := ex.tool_calls ++
            [{ name := nm
               parameters := ps
               result := rr
               error := ee
               timestamp := iso
               duration_ms :=
                 match st.tool_start_time with
                 | some t2 => if t2 ≠ 0 then some ((now - t2) * 1000) else none
                 | none => none
               retry_count := k }] }
          tool_start_time :=
            match st.tool_start_time with
            | some t2 => if t2 ≠ 0 then none else some t2
            | none => none } hrec
        refine ⟨?_, h2⟩
        rw [h1]
        rfl
    | assistantResponse t now =>
      have hstep : stepEvent st (.assistantResponse t now)
          = add_assistant_response st t now := rfl
      rw [runEvents, hstep]
      unfold add_assistant_response
      rw [if_pos hrec]
      cases hcur : st.current_exchange with
      | none =>
        obtain ⟨h1, h2⟩ := @ih st hrec
        refine ⟨?_, h2⟩
        rw [h1]
        rw [hcur]
        rfl
      | some ex =>
        obtain ⟨h1, h2⟩ := @ih { st with
          session := { st.session with exchanges := st.session.exchanges ++
            [{ ex with
               assistant_response := t
               output_tokens_estimate := some (estimate_tokens t)
               exchange_duration_ms :=
                 match st.exchange_start_time with
                 | some t2 => if t2 ≠ 0 then some ((now - t2) * 1000)
                              else ex.exchange_duration_ms
                 | none => ex.exchange_duration_ms }] }
          current_exchange := none
          exchange_start_time := none } hrec
        refine ⟨?_, h2⟩
        rw [h1]
        simp [pairOf, specPairs]

/-! ## Support lemmas for the miner bounds and the error breakdown. -/

theorem parseOneFile_length (acc : List DebugRecord) (f : LogFile) :
    (parseOneFile acc f).length ≤ acc.length + 1 := by
  unfold parseOneFile
  cases f.read with
  | ok c => cases hext : extract_log_entries c f.name <;> simp [hext]
  | err e => simp

theorem foldl_parse_length :
    ∀ (fl : List LogFile) (acc : List DebugRecord),
      (fl.foldl parseOneFile acc).length ≤ acc.length + fl.length := by
  intro fl
  induction fl with
  | nil => simp
  | cons f fl ih =>
    intro acc
    have h2 := ih (parseOneFile acc f)
    have h3 := parseOneFile_length acc f
    simp only [List.foldl_cons, List.length_cons]
    omega

theorem foldl_parse_mem {r : DebugRecord} :
    ∀ (fl : List LogFile) (acc : List DebugRecord),
      r ∈ fl.foldl parseOneFile acc →
      r ∈ acc ∨ ∃ f ∈ fl,
        (∃ c, f.read = ReadResult.ok c ∧ extract_log_entries c f.name = some r)
        ∨ (∃ e, f.read = ReadResult.err e
            ∧ r = DebugRecord.failure f.name (failPrefix ++ e)) := by
  intro fl
  induction fl with
  | nil =>
    intro acc h
    exact Or.inl (by simpa using h)
  | cons f fl ih =>
    intro acc h
    simp only [List.foldl_cons] at h
    rcases ih _ h with hacc | ⟨f2, hf2, hcase⟩
    · unfold parseOneFile at hacc
      cases hread : f.read with
      | ok c =>
        simp only [hread] at hacc
        cases hext : extract_log_entries c f.name with
        | some rec2 =>
          simp only [hext] at hacc
          rcases List.mem_append.mp hacc with h1 | h1
          · exact Or.inl h1
          · simp only [List.mem_singleton] at h1
            subst h1
            exact Or.inr ⟨f, by simp, Or.inl ⟨c, hread, hext⟩⟩
        | none =>
          simp only [hext] at hacc
          exact Or.inl hacc
      | err e =>
        simp only [hread] at hacc
        rcases List.mem_append.mp hacc with h1 | h1
        · exact Or.inl h1
        · simp only [List.mem_singleton] at h1
          exact Or.inr ⟨f, by simp, Or.inr ⟨e, hread, h1⟩⟩
    · exact Or.inr ⟨f2, by simp [hf2], hcase⟩

theorem extract_some_elim {c fname : Str} {r : DebugRecord}
    (h : extract_log_entries c fname = some r) :
    ∃ es, r = DebugRecord.findings fname es
      ∧ es = ((splitNl c).filterMap lineEntry).take 100
      ∧ es ≠ [] ∧ es.length ≤ 100 := by
  simp only [extract_log_entries] at h
  by_cases he : ((splitNl c).filterMap lineEntry).isEmpty
  · rw [if_pos he] at h
    exact absurd h (by simp)
  · rw [if_neg he] at h
    simp only [Option.some.injEq] at h
    refine ⟨((splitNl c).filterMap lineEntry).take 100, h.symm, rfl, ?_, ?_⟩
    · cases hq : (splitNl c).filterMap lineEntry with
      | nil => rw [hq] at he; simp at he
      | cons a as => simp [hq]
    · exact List.length_take_le 100 _

theorem lookupD_dictIncr (d : List (Str × Nat)) (k2 k : Str) :
    lookupD (dictIncr d k2) k = lookupD d k + (if k2 = k then 1 else 0) := by
  induction d with
  | nil => by_cases h : k2 = k <;> simp [dictIncr, lookupD, h]
  | cons pr rest ih =>
    obtain ⟨k3, v⟩ := pr
    by_cases h32 : k3 = k2
    · subst h32
      simp only [dictIncr, if_pos rfl]
      by_cases h3k : k3 = k <;> simp [lookupD, h3k]
    · simp only [dictIncr, if_neg h32]
      by_cases h3k : k3 = k
      · subst h3k
        have hne : k2 ≠ k3 := fun he => h32 he.symm
        simp [lookupD, hne]
      · simp [lookupD, h3k, ih]

theorem error_types_count_aux :
    ∀ (errs : List ErrorRecord) (d : List (Str × Nat)) (k : Str),
      lookupD (errs.foldl (fun d2 e => dictIncr d2 (typeKeyOf e)) d) k
        = lookupD d k + (errs.filter (fun e => typeKeyOf e = k)).length := by
  intro errs
  induction errs with
  | nil => simp
  | cons e rest ih =>
    intro d k
    simp only [List.foldl_cons, List.filter_cons]
    rw [ih]
    rw [lookupD_dictIncr]
    by_cases h : typeKeyOf e = k
    · simp [h]
      omega
    · simp [h]

/-! ## Concrete instances used by witnesses and counterexamples. -/

/-- Empty session metadata. -/
def emptyMeta : SessionMetadata :=
  { session_id := ['s'], model := unknownS, start_time := [], end_time := none,
    working_directory := [], git_branch := none, log_dir := none }

/-- A first environment probe result. -/
def demoEnv : EnvironmentContext :=
  { os_name := ['L'], os_version := [], shell := [], python_version := [],
    git_version := none, gh_cli_version := none, node_version := none,
    copilot_version := none, terminal := none }

/-- A second, different environment probe result. -/
def demoEnvB : EnvironmentContext := { demoEnv with os_name := ['D'] }

/-- A recorder that has been stopped: not recording, stale end timestamp. -/
def stoppedState : RecorderState :=
  { session :=
      { metadata := { emptyMeta with end_time := some ['e'] }
        environment := some demoEnv
        exchanges := []
        errors := []
        debug_logs := [] }
    current_exchange := none
    exchange_start_time := none
    tool_start_time := none
    recording := false
    log_dir := none }

/-- A recorder that is actively recording with no open exchange. -/
def recState : RecorderState :=
  { session :=
      { metadata := emptyMeta
        environment := none
        exchanges := []
        errors := []
        debug_logs := [] }
    current_exchange := none
    exchange_start_time := none
    tool_start_time := none
    recording := true
    log_dir := none }

/-- A recorder with a configured log directory. -/
def dirState : RecorderState :=
  { recState with
    session := { recState.session with
      metadata := { emptyMeta with log_dir := some ['d'] } }
    log_dir := some ['d'] }

/-- A text matching the first default scrub pattern. -/
def leakStr : Str :=
  ['t', 'o', 'k', 'e', 'n', ':', ' ', 'h', 'u', 'n', 't', 'e', 'r', '2']

/-- A tool call whose error field carries sensitive text. -/
def demoTC : ToolCall :=
  { name := ['g'], parameters := [(['p'], PVal.str leakStr)],
    result := some leakStr, error := some leakStr, timestamp := [],
    duration_ms := none, retry_count := 0 }

/-- An exchange containing `demoTC`. -/
def demoEx : Exchange :=
  { user_prompt := leakStr, assistant_response := ['o', 'k'],
    tool_calls := [demoTC], timestamp := [], input_tokens_estimate := none,
    output_tokens_estimate := none, exchange_duration_ms := none }

/-- A session whose tool-call error and error-record message both carry
sensitive text. -/
def demoSession : SessionData :=
  { metadata := emptyMeta, environment := none, exchanges := [demoEx],
    errors := [{ type := some ['t'], message := leakStr, context := [],
                 timestamp := [] }],
    debug_logs := [] }

/-- The start timestamp of the duration example. -/
def iso0000 : Str :=
  ['2', '0', '2', '4', '-', '0', '1', '-', '0', '1', 'T', '0', '0', ':', '0',
   '0', ':', '0', '0']

/-- The end timestamp of the duration example. -/
def iso0130 : Str :=
  ['2', '0', '2', '4', '-', '0', '1', '-', '0', '1', 'T', '0', '0', ':', '0',
   '1', ':', '3', '0']

/-- An unparsable timestamp. -/
def badIso : Str := ['n', 'o', 't', '-', 'a', '-', 'd', 'a', 't', 'e']

/-- Metadata of the 90-second duration example. -/
def demoMeta90 : SessionMetadata :=
  { emptyMeta with start_time := iso0000, end_time := some iso0130 }

/-- Metadata with no end timestamp. -/
def demoMetaNoEnd : SessionMetadata := { emptyMeta with start_time := iso0000 }

/-- Metadata whose start timestamp does not parse. -/
def demoMetaBad : SessionMetadata :=
  { emptyMeta with start_time := badIso, end_time := some iso0130 }

/-- A trace with a superseded prompt: the first prompt is discarded. -/
def demoTrace : List REvent :=
  [REvent.userPrompt ['a'] 0 [], REvent.userPrompt ['b'] 0 [],
   REvent.toolCall ['t'] [] none none 0 0 [],
   REvent.assistantResponse ['r'] 1]

/-- One readable log file whose content has one qualifying line. -/
def demoFiles : List LogFile :=
  [{ name := ['a', '.', 'l', 'o', 'g'], mtime := 3,
     read := ReadResult.ok ['E', 'R', 'R', 'O', 'R', ':', ' ', 'b', 'o', 'o', 'm'] }]

/-- The qualifying entries of the demo log file. -/
def demoEntries : List LogEntry :=
  ((splitNl ['E', 'R', 'R', 'O', 'R', ':', ' ', 'b', 'o', 'o', 'm']).filterMap
    lineEntry).take 100

/-- An error record whose `type` value is the empty string. -/
def emptyTypeErr : ErrorRecord :=
  { type := some [], message := ['m'], context := [], timestamp := [] }

/-- Error records with an empty and a present type. -/
def demoErrList : List ErrorRecord :=
  [{ type := some ['a'], message := [], context := [], timestamp := [] },
   { type := some ['b'], message := [], context := [], timestamp := [] },
   { type := some ['a'], message := [], context := [], timestamp := [] }]

/-! ## Claim theorems. -/

/-- C1: for every trace of `add_user_prompt`, `add_tool_call` and
`add_assistant_response` calls made while recording, the exchange list
grows by exactly the completed prompt/response pairs of the trace
(`specPairs`, whose prompt case overwrites the pending prompt, so an open
exchange superseded by a second prompt is discarded and never appears);
hence the exchange count equals the number of completed pairs, and in the
prompt-prompt-response scenario only the second prompt's pair is appended. -/
theorem C1_exchange_pairs (st : RecorderState) (evs : List REvent)
    (hrec : st.recording = true) :
    ((runEvents st evs).session.exchanges).map pairOf
        = (st.session.exchanges).map pairOf
            ++ specPairs (st.current_exchange.map (fun e => e.user_prompt)) evs
      ∧ (runEvents st evs).session.exchanges.length
          = st.session.exchanges.length
              + (specPairs (st.current_exchange.map (fun e => e.user_prompt)) evs).length
      ∧ (∀ p1 p2 resp t1 t2 t3 i1 i2, st.current_exchange = none →
          ((runEvents st [REvent.userPrompt p1 t1 i1, REvent.userPrompt p2 t2 i2,
              REvent.assistantResponse resp t3]).session.exchanges).map pairOf
            = (st.session.exchanges).map pairOf ++ [(p2, resp)]) := by
  obtain ⟨h1, -⟩ := runEvents_exchanges hrec evs
  refine ⟨h1, ?_, ?_⟩
  · have hlen := congrArg List.length h1
    simpa using hlen
  · intro p1 p2 resp t1 t2 t3 i1 i2 hcur
    obtain ⟨h2, -⟩ := runEvents_exchanges hrec
      [REvent.userPrompt p1 t1 i1, REvent.userPrompt p2 t2 i2,
       REvent.assistantResponse resp t3]
    rw [h2, hcur]
    rfl

/-- Witness for C1 at a concrete recording state and trace with a
superseded prompt. -/
theorem C1_exchange_pairs_witness :
    ((runEvents recState demoTrace).session.exchanges).map pairOf
      = [(['b'], ['r'])] := by
  have h := (C1_exchange_pairs recState demoTrace rfl).1
  rw [h]
  rfl

/-- C2 counterexample: `start_recording` does not clear a stale
`metadata.end_time` left by a previous `stop_recording`. -/
theorem C2_counterexample :
    (start_recording stoppedState none true ['n'] demoEnv).session.metadata.end_time
      ≠ none := by
  decide

/-- C2 amended: `start_recording` sets the recording flag, stamps
`metadata.start_time` to now, and leaves `metadata.end_time` unchanged
(a stale end timestamp survives a restart). -/
theorem C2_amended (st : RecorderState) (gb : Option Str) (cap : Bool)
    (iso : Str) (env : EnvironmentContext) :
    (start_recording st gb cap iso env).recording = true
      ∧ (start_recording st gb cap iso env).session.metadata.start_time = iso
      ∧ (start_recording st gb cap iso env).session.metadata.end_time
          = st.session.metadata.end_time :=
  ⟨rfl, rfl, rfl⟩

/-- C3: scrubbing with the default pattern set is idempotent, both on any
text and on any session record. -/
theorem C3_scrub_idempotent :
    (∀ s : Str, scrubText (scrubText s) = scrubText s)
      ∧ ∀ sd : SessionData,
          scrub_sensitive_data (scrub_sensitive_data sd) = scrub_sensitive_data sd :=
  ⟨scrubText_idem, scrub_sensitive_data_idem⟩

/-- C4: the statistics duration is absent when `end_time` is unset or when
either timestamp fails ISO parsing (the model is total, so no error is
raised); otherwise it equals end minus start in seconds. -/
theorem C4_duration_spec (md : SessionMetadata) :
    (md.end_time = none → calculate_duration md = none)
      ∧ ∀ e, md.end_time = some e →
          ((fromisoformat md.start_time = none ∨ fromisoformat e = none) →
              calculate_duration md = none)
            ∧ (∀ a b, fromisoformat md.start_time = some a →
                fromisoformat e = some b → calculate_duration md = some (b - a)) := by
  constructor
  · intro h
    simp [calculate_duration, h]
  · intro e he
    constructor
    · rintro (h | h)
      · simp [calculate_duration, he, h]
      · cases hs : fromisoformat md.start_time <;>
          simp [calculate_duration, he, h, hs]
    · intro a b ha hb
      simp [calculate_duration, he, ha, hb]

/-- Witness for C4: the 90-second example, a missing end time, and a
parse failure. -/
theorem C4_duration_spec_witness :
    calculate_duration demoMeta90 = some 90
      ∧ calculate_duration demoMetaNoEnd = none
      ∧ calculate_duration demoMetaBad = none := by
  refine ⟨?_, ?_, ?_⟩
  · have h := ((C4_duration_spec demoMeta90).2 iso0130 rfl).2
      (((1704067200 : Int)) : ℚ) (((1704067290 : Int)) : ℚ)
      (by decide) (by decide)
    rw [h]
    norm_num
  · exact (C4_duration_spec demoMetaNoEnd).1 rfl
  · exact ((C4_duration_spec demoMetaBad).2 iso0130 rfl).1 (Or.inl (by decide))

/-- C5 counterexample: `scrub_sensitive_data` leaves a tool call's error
text and the error records untouched even when they match a default
pattern (`scrubText` would have changed the text). -/
theorem C5_counterexample :
    ((scrub_sensitive_data demoSession).exchanges.map
        (fun e => e.tool_calls.map (fun tc => tc.error))) = [[some leakStr]]
      ∧ (scrub_sensitive_data demoSession).errors = demoSession.errors
      ∧ scrubText leakStr ≠ leakStr := by
  decide

/-- C5 amended: scrubbing rewrites, in every exchange, the prompt, the
response, the truthy tool-call result and the string-valued tool-call
parameters through `scrubText` (after which no default pattern matches
anywhere), and leaves the tool-call error field, the error records,
the metadata, the environment and the debug findings unchanged. -/
theorem C5_amended (sd : SessionData) :
    ((scrub_sensitive_data sd).errors = sd.errors
        ∧ (scrub_sensitive_data sd).metadata = sd.metadata
        ∧ (scrub_sensitive_data sd).environment = sd.environment
        ∧ (scrub_sensitive_data sd).debug_logs = sd.debug_logs)
      ∧ (scrub_sensitive_data sd).exchanges = sd.exchanges.map scrub_exchange
      ∧ (∀ ex : Exchange, (scrub_exchange ex).user_prompt = scrubText ex.user_prompt
          ∧ (scrub_exchange ex).assistant_response = scrubText ex.assistant_response
          ∧ (scrub_exchange ex).tool_calls = ex.tool_calls.map scrub_tool_call
          ∧ (scrub_exchange ex).timestamp = ex.timestamp)
      ∧ (∀ tc : ToolCall, (scrub_tool_call tc).error = tc.error
          ∧ (scrub_tool_call tc).result = scrubResult tc.result
          ∧ (scrub_tool_call tc).parameters
              = tc.parameters.map (fun pr => (pr.1, scrubPVal pr.2)))
      ∧ (∀ s : Str, CleanStr pat1 (scrubText s) ∧ CleanStr pat2 (scrubText s)
          ∧ CleanStr pat3 (scrubText s) ∧ CleanStr pat4 (scrubText s)) := by
  refine ⟨⟨rfl, rfl, rfl, rfl⟩, rfl, fun ex => ⟨rfl, rfl, rfl, rfl⟩,
    fun tc => ⟨rfl, rfl, rfl⟩, fun s => scrubText_cleanStr s⟩

/-- C6: the miner processes at most the five most recently modified log
files; every findings record comes from one of those five, is non-empty,
and holds at most the first 100 qualifying entries of its file; failure
records also come from one of the five files. -/
theorem C6_miner_bounds (files : List LogFile) :
    (parse_debug_logs files).length ≤ 5
      ∧ ∀ r ∈ parse_debug_logs files,
          (∀ f es, r = DebugRecord.findings f es →
            es ≠ [] ∧ es.length ≤ 100
              ∧ ∃ lf ∈ (sortLogFiles files).take 5, lf.name = f
                  ∧ ∃ c, lf.read = ReadResult.ok c
                      ∧ es = ((splitNl c).filterMap lineEntry).take 100)
          ∧ (∀ f msg, r = DebugRecord.failure f msg →
              ∃ lf ∈ (sortLogFiles files).take 5, lf.name = f
                ∧ ∃ e, lf.read = ReadResult.err e ∧ msg = failPrefix ++ e) := by
  constructor
  · have h := foldl_parse_length ((sortLogFiles files).take 5) []
    simp only [List.length_nil, Nat.zero_add] at h
    exact le_trans h (List.length_take_le 5 _)
  · intro r hr
    have hmem := foldl_parse_mem _ _ hr
    rcases hmem with h0 | ⟨f, hf, hcase⟩
    · simp at h0
    constructor
    · intro fn es hre
      subst hre
      rcases hcase with ⟨c, hread, hext⟩ | ⟨e, hread, habs⟩
      · obtain ⟨es2, hr2, hes2, hne, hlen⟩ := extract_some_elim hext
        have hfn : fn = f.name ∧ es = es2 := by
          cases hr2
          exact ⟨rfl, rfl⟩
        obtain ⟨rfl, rfl⟩ := hfn
        exact ⟨hne, hlen, f, hf, rfl, c, hread, hes2⟩
      · cases habs
    · intro fn msg hre
      subst hre
      rcases hcase with ⟨c, hread, hext⟩ | ⟨e, hread, habs⟩
      · obtain ⟨es2, hr2, -, -, -⟩ := extract_some_elim hext
        cases hr2
      · cases habs
        exact ⟨f, hf, rfl, e, hread, rfl⟩

/-- Witness for C6 at a one-file filesystem with one qualifying line. -/
theorem C6_miner_bounds_witness :
    (parse_debug_logs demoFiles).length ≤ 5
      ∧ demoEntries ≠ [] ∧ demoEntries.length ≤ 100 := by
  have h := C6_miner_bounds demoFiles
  have hmem : DebugRecord.findings ['a', '.', 'l', 'o', 'g'] demoEntries
      ∈ parse_debug_logs demoFiles := by decide
  have h2 := (h.2 _ hmem).1 ['a', '.', 'l', 'o', 'g'] demoEntries rfl
  exact ⟨h.1, h2.1, h2.2.1⟩

/-- C7 counterexample: a second `start_recording` with environment capture
enabled probes again and replaces the previously captured context. -/
theorem C7_counterexample :
    (start_recording (start_recording stoppedState none true ['n'] demoEnv)
        none true ['m'] demoEnvB).session.environment ≠ some demoEnv := by
  decide

/-- C7 amended: every `start_recording` call with
`capture_environment = true` stores a freshly probed context, replacing any
previously captured one; with `capture_environment = false` the stored
context is kept. -/
theorem C7_amended (st : RecorderState) (gb : Option Str) (cap : Bool)
    (iso : Str) (env : EnvironmentContext) :
    (start_recording st gb cap iso env).session.environment
      = if cap then some env else st.session.environment := rfl

/-- C8 counterexample: an error whose `type` field is the empty string is
counted under the empty string, not under `unknown`. -/
theorem C8_counterexample :
    lookupD (error_types [emptyTypeErr]) unknownS = 0
      ∧ lookupD (error_types [emptyTypeErr]) ([] : Str) = 1 := by
  decide

/-- C8 amended: the error breakdown maps each key to the number of error
records whose `type` value (defaulting to `unknown` only when the `type`
key is absent altogether) equals the key; `add_error` always stores the
given type verbatim, so an empty type is counted under the empty string. -/
theorem C8_amended (errs : List ErrorRecord) (k : Str) :
    lookupD (error_types errs) k
        = (errs.filter (fun e => typeKeyOf e = k)).length
      ∧ (∀ st t msg ctx iso, st.recording = true →
          (add_error st t msg ctx iso).session.errors
            = st.session.errors
                ++ [{ type := some t, message := msg,
                      context := ctx.getD ([] : List (Str × PVal)),
                      timestamp := iso }]) := by
  constructor
  · have h := error_types_count_aux errs [] k
    simpa [error_types, lookupD] using h
  · intro st t msg ctx iso hrec
    simp [add_error, hrec]

/-- Witness for C8 at a concrete error list and recording state. -/
theorem C8_amended_witness :
    lookupD (error_types demoErrList) ['a'] = 2
      ∧ (add_error recState ['x'] ['m'] none ['i']).session.errors
          = recState.session.errors
              ++ [{ type := some ['x'], message := ['m'], context := [],
                    timestamp := ['i'] }] := by
  constructor
  · have h := (C8_amended demoErrList ['a']).1
    rw [h]
    decide
  · exact (C8_amended [] []).2 recState ['x'] ['m'] none ['i'] rfl

/-- C9: `add_tool_call` and `add_assistant_response` issued while not
recording, or with no open exchange, leave the whole recorder state
unchanged (session data, open-exchange slot and the pending timers). -/
theorem C9_noop (st : RecorderState) (nm : Str) (ps : List (Str × PVal))
    (rr ee : Option Str) (k : Nat) (now now2 : ℚ) (iso : Str) (resp : Str)
    (h : st.recording = false ∨ st.current_exchange = none) :
    add_tool_call st nm ps rr ee k now iso = st
      ∧ add_assistant_response st resp now2 = st := by
  rcases h with h | h
  · constructor <;> simp [add_tool_call, add_assistant_response, h]
  · constructor <;>
      by_cases hr : st.recording <;>
        simp [add_tool_call, add_assistant_response, h, hr]

/-- Witness for C9 at a stopped recorder. -/
theorem C9_noop_witness :
    add_tool_call stoppedState ['t'] [] none none 0 0 [] = stoppedState
      ∧ add_assistant_response stoppedState ['r'] 0 = stoppedState :=
  C9_noop stoppedState ['t'] [] none none 0 0 0 [] ['r'] (Or.inl rfl)

/-- C10: when a log directory is configured but the path does not exist at
stop time, `stop_recording` still clears the recording flag and stamps the
end timestamp, appends no debug findings, and (being total) raises no
error. -/
theorem C10_stop_missing_dir (st : RecorderState) (iso : Str)
    (h : truthyS st.log_dir = true) :
    stop_recording st iso none
        = { st with
            recording := false
            session := { st.session with
              metadata := { st.session.metadata with end_time := some iso } } }
      ∧ (stop_recording st iso none).session.debug_logs = st.session.debug_logs
      ∧ (stop_recording st iso none).recording = false
      ∧ (stop_recording st iso none).session.metadata.end_time = some iso
      ∧ (stop_recording st iso none).session.errors = st.session.errors
      ∧ (stop_recording st iso none).session.exchanges = st.session.exchanges := by
  have he : stop_recording st iso none
      = { st with
          recording := false
          session := { st.session with
            metadata := { st.session.metadata with end_time := some iso } } } := by
    unfold stop_recording
    rw [if_pos h]
  refine ⟨he, ?_, ?_, ?_, ?_, ?_⟩
  all_goals rw [he]

/-- Witness for C10 at a recorder with a configured log directory. -/
theorem C10_stop_missing_dir_witness :
    stop_recording dirState ['n'] none
      = { dirState with
          recording := false
          session := { dirState.session with
            metadata := { dirState.session.metadata with
              end_time := some ['n'] } } } :=
  (C10_stop_missing_dir dirState ['n'] rfl).1

end SessionRec
